import Mathlib

/-!
# Verification of the islington-housing snapshot/versioning core

This file gives a shallow embedding of the core logic of the repository:

* the JSON-like record values that the scrapers persist (a record is a
  mapping from field names to values: strings, integers, null, nested
  sequences and mappings — the data model of the snapshot store);
* the change detector (`data_changed` in `src/scrapers/registry_scraper.py`,
  the core comparison of `RightMoveScraper._has_changed` in
  `src/scrapers/rightmove.py`);
* the versioned snapshot store (`save_results` / `find_next_version` in
  `registry_scraper.py`, the per-property save loop of `RightMoveScraper.run`
  together with `_get_next_version` and `_has_changed` in `rightmove.py`);
* the resumable round-robin cursor (`get_next_postcodes` in
  `src/scrape_registry.py`) and the orchestrating loop of
  `scrape_registry.main`;
* `RightMoveScraper.scrape_postcode`.

File systems are modelled as finite association lists from file identity
(entity key and version ordinal) to file contents; a file content is either
a parseable record or malformed text.  Python dictionaries are modelled as
ordered association lists (`JObj`), with Python's `==` on dictionaries
modelled by `Json.eqv` (key order insignificant, sequence order significant,
values compared recursively).
-/

/-! ## JSON values -/

mutual

/-- A JSON value as handled by the scrapers: `null` (Python `None`),
integers, strings, sequences and mappings. -/
inductive Json where
  | null : Json
  | num (n : Int) : Json
  | str (s : String) : Json
  | arr (xs : JArr) : Json
  | obj (fs : JObj) : Json
deriving DecidableEq

/-- A JSON sequence. -/
inductive JArr where
  | nil : JArr
  | cons (hd : Json) (tl : JArr) : JArr
deriving DecidableEq

/-- A JSON mapping: an ordered list of key/value pairs (Python preserves
insertion order; real dictionaries never hold a key twice). -/
inductive JObj where
  | nil : JObj
  | cons (k : String) (v : Json) (tl : JObj) : JObj
deriving DecidableEq

end

/-- `d.get(key)`: the value bound to `key`, if any (first binding wins). -/
def JObj.lookup : JObj → String → Option Json
  | .nil, _ => none
  | .cons k v tl, key => if k = key then some v else tl.lookup key

/-- `key in d`. -/
def JObj.hasKey (o : JObj) (key : String) : Bool :=
  (o.lookup key).isSome

/-- `list(d.keys())`. -/
def JObj.keys : JObj → List String
  | .nil => []
  | .cons k _ tl => k :: tl.keys

/-- `len(d)` (meaningful on duplicate-free mappings). -/
def JObj.length : JObj → Nat
  | .nil => 0
  | .cons _ _ tl => tl.length + 1

/-- `{k: v for k, v in d.items() if k not in ignored}`: drop the ignored
keys at the top level only. -/
def JObj.removeKeys : JObj → List String → JObj
  | .nil, _ => .nil
  | .cons k v tl, ignored =>
    if k ∈ ignored then tl.removeKeys ignored else .cons k v (tl.removeKeys ignored)

/-- `d[key] = val`: replace the binding in place if the key is present,
otherwise append the new binding at the end. -/
def JObj.set : JObj → String → Json → JObj
  | .nil, key, val => .cons key val .nil
  | .cons k v tl, key, val =>
    if k = key then .cons k val tl else .cons k v (tl.set key val)

/-- `{**base, **upd}` (and `base.update(upd)`): fold `set` over `upd`. -/
def JObj.dictUpdate : JObj → JObj → JObj
  | base, .nil => base
  | base, .cons k v tl => (base.set k v).dictUpdate tl

/-- Python truthiness of a value (`if not x`). -/
def Json.falsy : Json → Bool
  | .null => true
  | .num n => n = 0
  | .str s => s.isEmpty
  | .arr .nil => true
  | .arr (.cons _ _) => false
  | .obj .nil => true
  | .obj (.cons _ _ _) => false

/-- Python `f"{x}"` for the values that can appear as entity keys in this
pipeline (licence numbers are strings; the fallback sentinel is a string). -/
def Json.pyStr : Json → String
  | .null => "None"
  | .num n => toString n
  | .str s => s
  | .arr _ => "<list>"
  | .obj _ => "<dict>"

/-- The keys of a mapping are duplicate-free (true of every Python dict). -/
def JObj.keysNodup : JObj → Bool
  | .nil => true
  | .cons k _ tl => !(tl.lookup k).isSome && tl.keysNodup

mutual

/-- Well-formed value: every mapping nested anywhere inside has
duplicate-free keys.  Every value obtained from a real Python object is
well-formed. -/
def Json.wfv : Json → Bool
  | .null => true
  | .num _ => true
  | .str _ => true
  | .arr xs => xs.wfv
  | .obj fs => fs.keysNodup && fs.wfVals

/-- All elements of a sequence are well-formed. -/
def JArr.wfv : JArr → Bool
  | .nil => true
  | .cons x tl => x.wfv && tl.wfv

/-- All values of a mapping are well-formed. -/
def JObj.wfVals : JObj → Bool
  | .nil => true
  | .cons _ v tl => v.wfv && tl.wfVals

end

theorem JObj.lookup_sizeOf : ∀ (gs : JObj) (k : String) (w : Json),
    gs.lookup k = some w → sizeOf w < sizeOf gs
  | .cons k0 _ tl, k, w, h => by
    by_cases hk : k0 = k
    · simp [JObj.lookup, hk] at h
      subst h
      simp
      omega
    · simp [JObj.lookup, hk] at h
      have := JObj.lookup_sizeOf tl k w h
      simp
      omega

/-! ## Python `==` on values (`Json.eqv`)

Two mappings are equal when they have the same number of bindings and every
binding of the first is matched by the second under lookup — Python's
dictionary equality, insensitive to key order.  Sequences compare pointwise
in order. -/

mutual

/-- Python `==` between two values. -/
def Json.eqv : Json → Json → Bool
  | .null, .null => true
  | .num a, .num b => a = b
  | .str a, .str b => a = b
  | .arr xs, .arr ys => JArr.eqv xs ys
  | .obj fs, .obj gs => fs.length = gs.length && JObj.eqvAll fs gs
  | _, _ => false
termination_by a b => sizeOf a + sizeOf b

/-- Python `==` between two sequences: pointwise, order significant. -/
def JArr.eqv : JArr → JArr → Bool
  | .nil, .nil => true
  | .cons x xs, .cons y ys => Json.eqv x y && JArr.eqv xs ys
  | _, _ => false
termination_by a b => sizeOf a + sizeOf b

/-- Every binding of `fs` is matched by `gs` under lookup. -/
def JObj.eqvAll : JObj → JObj → Bool
  | .nil, _ => true
  | .cons k v tl, gs =>
    (match h : gs.lookup k with
     | some w => Json.eqv v w
     | none => false) && JObj.eqvAll tl gs
termination_by a b => sizeOf a + sizeOf b
decreasing_by
  all_goals try (have hb := JObj.lookup_sizeOf gs k w h)
  all_goals simp_all
  all_goals omega

end

/-! ## Canonical forms (sorted-key serialization)

`json.dumps(x, sort_keys=True)` serializes a value with the keys of every
mapping sorted; two values have the same sorted-key serialization exactly
when their canonical forms below are equal. -/

/-- The key order of `json.dumps(·, sort_keys=True)`: lexicographic by code
point (Python string `<=`), phrased on the character lists so that it
computes by evaluation. -/
def keyLe (a b : String) : Bool := decide (a.data ≤ b.data)

theorem keyLe_iff (a b : String) : keyLe a b = true ↔ a ≤ b := by
  rw [String.le_iff_toList_le]
  simp [keyLe]

/-- Insert a binding into a key-sorted mapping, keeping it sorted. -/
def JObj.insertSorted (k : String) (v : Json) : JObj → JObj
  | .nil => .cons k v .nil
  | .cons k2 v2 tl =>
    if keyLe k k2 then .cons k v (.cons k2 v2 tl) else .cons k2 v2 (tl.insertSorted k v)

/-- Sort the bindings of a mapping by key (insertion sort). -/
def JObj.sortByKey : JObj → JObj
  | .nil => .nil
  | .cons k v tl => (tl.sortByKey).insertSorted k v

mutual

/-- Canonical form of a value: every nested mapping key-sorted, sequences
kept in order. -/
def Json.canon : Json → Json
  | .null => .null
  | .num n => .num n
  | .str s => .str s
  | .arr xs => .arr xs.canon
  | .obj fs => .obj fs.canonFields.sortByKey

/-- Canonical form of each element of a sequence. -/
def JArr.canon : JArr → JArr
  | .nil => .nil
  | .cons x tl => .cons x.canon tl.canon

/-- Canonical form of each value of a mapping (keys untouched). -/
def JObj.canonFields : JObj → JObj
  | .nil => .nil
  | .cons k v tl => .cons k v.canon tl.canonFields

end

/-! ### Lemmas about mappings -/

theorem JObj.mem_keys_iff : ∀ (o : JObj) (k : String), k ∈ o.keys ↔ (o.lookup k).isSome
  | .nil, k => by simp [JObj.keys, JObj.lookup]
  | .cons k0 _ tl, k => by
    by_cases hk : k0 = k
    · subst hk
      simp [JObj.keys, JObj.lookup]
    · simp [JObj.keys, JObj.lookup, hk, JObj.mem_keys_iff tl k, Ne.symm hk]

theorem JObj.lookup_eq_none (o : JObj) (k : String) (h : k ∉ o.keys) : o.lookup k = none := by
  rw [JObj.mem_keys_iff] at h
  exact Option.not_isSome_iff_eq_none.mp h

theorem JObj.keys_length : ∀ (o : JObj), o.keys.length = o.length
  | .nil => rfl
  | .cons _ _ tl => by simp [JObj.keys, JObj.length, JObj.keys_length tl]

theorem JObj.lookup_canonFields : ∀ (o : JObj) (k : String),
    o.canonFields.lookup k = (o.lookup k).map Json.canon
  | .nil, k => by simp [JObj.canonFields, JObj.lookup]
  | .cons k0 v tl, k => by
    by_cases hk : k0 = k <;>
      simp [JObj.canonFields, JObj.lookup, hk, JObj.lookup_canonFields tl k]

theorem JObj.keys_canonFields : ∀ (o : JObj), o.canonFields.keys = o.keys
  | .nil => rfl
  | .cons k v tl => by simp [JObj.canonFields, JObj.keys, JObj.keys_canonFields tl]

theorem JObj.lookup_insertSorted : ∀ (o : JObj) (k : String) (v : Json) (key : String),
    (o.insertSorted k v).lookup key = if k = key then some v else o.lookup key
  | .nil, k, v, key => by simp [JObj.insertSorted, JObj.lookup]
  | .cons k2 v2 tl, k, v, key => by
    by_cases hle : keyLe k k2 = true
    · simp [JObj.insertSorted, hle, JObj.lookup]
    · by_cases hk2 : k2 = key
      · subst hk2
        have hne : k ≠ k2 := by
          intro e
          subst e
          exact hle ((keyLe_iff k k).mpr le_rfl)
        simp [JObj.insertSorted, hle, JObj.lookup, hne]
      · simp [JObj.insertSorted, hle, JObj.lookup, hk2, JObj.lookup_insertSorted tl k v key]

theorem JObj.lookup_sortByKey : ∀ (o : JObj) (key : String),
    o.sortByKey.lookup key = o.lookup key
  | .nil, key => rfl
  | .cons k v tl, key => by
    simp [JObj.sortByKey, JObj.lookup_insertSorted, JObj.lookup, JObj.lookup_sortByKey tl key]

theorem JObj.keys_insertSorted : ∀ (o : JObj) (k : String) (v : Json),
    (o.insertSorted k v).keys = List.orderedInsert (· ≤ ·) k o.keys
  | .nil, k, v => by simp [JObj.insertSorted, JObj.keys, List.orderedInsert]
  | .cons k2 v2 tl, k, v => by
    by_cases hle : (k : String) ≤ k2
    · simp [JObj.insertSorted, (keyLe_iff k k2).mpr hle, JObj.keys, List.orderedInsert, hle]
    · have hb : keyLe k k2 = false := by
        rw [Bool.eq_false_iff]
        intro hc
        exact hle ((keyLe_iff k k2).mp hc)
      simp [JObj.insertSorted, hb, JObj.keys, List.orderedInsert, hle,
        JObj.keys_insertSorted tl k v]

theorem JObj.keys_sortByKey : ∀ (o : JObj),
    o.sortByKey.keys = o.keys.insertionSort (· ≤ ·)
  | .nil => rfl
  | .cons k v tl => by
    simp [JObj.sortByKey, JObj.keys, List.insertionSort, JObj.keys_insertSorted,
      JObj.keys_sortByKey tl]

theorem JObj.keys_sortByKey_perm (o : JObj) : o.sortByKey.keys.Perm o.keys := by
  rw [JObj.keys_sortByKey]
  exact List.perm_insertionSort _ _

theorem JObj.keys_sortByKey_sorted (o : JObj) : o.sortByKey.keys.Sorted (· ≤ ·) := by
  rw [JObj.keys_sortByKey]
  exact List.sorted_insertionSort _ _

theorem sortedLt_of_sortedLe_nodup : ∀ {l : List String},
    l.Sorted (· ≤ ·) → l.Nodup → l.Sorted (· < ·) := by
  intro l hs hn
  induction l with
  | nil => simp
  | cons a tl ih =>
    rw [List.sorted_cons] at hs ⊢
    rw [List.nodup_cons] at hn
    refine ⟨fun b hb => lt_of_le_of_ne (hs.1 b hb) ?_, ih hs.2 hn.2⟩
    intro e
    exact hn.1 (e ▸ hb)

theorem JObj.sorted_lookup_ext : ∀ (o1 o2 : JObj),
    o1.keys.Sorted (· < ·) → o2.keys.Sorted (· < ·) →
    (∀ k, o1.lookup k = o2.lookup k) → o1 = o2
  | .nil, .nil, _, _, _ => rfl
  | .nil, .cons k2 v2 tl2, _, _, hl => by
    have := hl k2
    simp [JObj.lookup] at this
  | .cons k1 v1 tl1, .nil, _, _, hl => by
    have := hl k1
    simp [JObj.lookup] at this
  | .cons k1 v1 tl1, .cons k2 v2 tl2, hs1, hs2, hl => by
    rw [JObj.keys, List.sorted_cons] at hs1 hs2
    have hmem1 : k1 = k2 ∨ k1 ∈ tl2.keys := by
      have h1 := hl k1
      simp [JObj.lookup] at h1
      by_cases h12 : k2 = k1
      · exact Or.inl h12.symm
      · simp [h12] at h1
        right
        exact (JObj.mem_keys_iff tl2 k1).mpr (by rw [← h1]; rfl)
    have hmem2 : k2 = k1 ∨ k2 ∈ tl1.keys := by
      have h2 := hl k2
      simp [JObj.lookup] at h2
      by_cases h21 : k1 = k2
      · exact Or.inl h21.symm
      · simp [h21] at h2
        right
        exact (JObj.mem_keys_iff tl1 k2).mpr (by rw [h2]; rfl)
    have hk : k1 = k2 := by
      rcases hmem1 with h | h
      · exact h
      · rcases hmem2 with h' | h'
        · exact h'.symm
        · exact absurd (lt_trans (hs1.1 k2 h') (hs2.1 k1 h)) (lt_irrefl k1)
    subst hk
    have hv : v1 = v2 := by
      have := hl k1
      simp [JObj.lookup] at this
      exact this
    subst hv
    have htl : tl1 = tl2 := by
      apply JObj.sorted_lookup_ext tl1 tl2 hs1.2 hs2.2
      intro k
      by_cases hk1 : k1 = k
      · subst hk1
        rw [JObj.lookup_eq_none tl1 k1 (fun hc => lt_irrefl k1 (hs1.1 k1 hc)),
          JObj.lookup_eq_none tl2 k1 (fun hc => lt_irrefl k1 (hs2.1 k1 hc))]
      · have := hl k
        simp [JObj.lookup, hk1] at this
        exact this
    rw [htl]

theorem JObj.keysNodup_iff : ∀ (o : JObj), o.keysNodup = true ↔ o.keys.Nodup
  | .nil => by simp [JObj.keysNodup, JObj.keys]
  | .cons k v tl => by
    simp [JObj.keysNodup, JObj.keys, List.nodup_cons, JObj.keysNodup_iff tl,
      JObj.mem_keys_iff]

theorem JObj.wfVals_lookup : ∀ (o : JObj) (k : String) (v : Json),
    o.wfVals = true → o.lookup k = some v → v.wfv = true
  | .nil, k, v, _, hl => by simp [JObj.lookup] at hl
  | .cons k0 v0 tl, k, v, hwf, hl => by
    simp [JObj.wfVals] at hwf
    by_cases hk : k0 = k
    · simp [JObj.lookup, hk] at hl
      subst hl
      exact hwf.1
    · simp [JObj.lookup, hk] at hl
      exact JObj.wfVals_lookup tl k v hwf.2 hl

theorem JObj.eqvAll_lookup : ∀ (o gs : JObj) (k : String) (v : Json),
    JObj.eqvAll o gs = true → o.lookup k = some v →
    ∃ w, gs.lookup k = some w ∧ Json.eqv v w = true
  | .nil, _, k, v, _, hl => by simp [JObj.lookup] at hl
  | .cons k0 v0 tl, gs, k, v, he, hl => by
    rw [JObj.eqvAll] at he
    rw [Bool.and_eq_true] at he
    by_cases hk : k0 = k
    · subst hk
      simp [JObj.lookup] at hl
      subst hl
      cases hg : gs.lookup k0 with
      | some w =>
        refine ⟨w, rfl, ?_⟩
        have := he.1
        rw [hg] at this
        exact this
      | none =>
        have := he.1
        rw [hg] at this
        simp at this
    · simp [JObj.lookup, hk] at hl
      exact JObj.eqvAll_lookup tl gs k v he.2 hl

theorem mem_of_subset_of_length (l1 l2 : List String) (h1 : l1.Nodup) (h2 : l2.Nodup)
    (hsub : ∀ x ∈ l1, x ∈ l2) (hlen : l1.length = l2.length) : ∀ x ∈ l2, x ∈ l1 := by
  have hf : l1.toFinset ⊆ l2.toFinset := by
    intro x hx
    rw [List.mem_toFinset] at hx ⊢
    exact hsub x hx
  have hcard : l2.toFinset.card ≤ l1.toFinset.card := by
    rw [List.toFinset_card_of_nodup h1, List.toFinset_card_of_nodup h2, hlen]
  have heq := Finset.eq_of_subset_of_card_le hf hcard
  intro x hx
  rw [← List.mem_toFinset, ← heq, List.mem_toFinset] at hx
  exact hx

theorem JObj.lookup_removeKeys : ∀ (o : JObj) (ign : List String) (k : String),
    (o.removeKeys ign).lookup k = if k ∈ ign then none else o.lookup k
  | .nil, ign, k => by simp [JObj.removeKeys, JObj.lookup]
  | .cons k0 v tl, ign, k => by
    by_cases h0 : k0 ∈ ign
    · by_cases hk : k0 = k
      · subst hk
        simp [JObj.removeKeys, h0, JObj.lookup_removeKeys tl ign k0]
      · simp only [JObj.removeKeys, if_pos h0, JObj.lookup_removeKeys tl ign k]
        by_cases hin : k ∈ ign
        · simp [hin]
        · simp [hin, JObj.lookup, hk]
    · by_cases hk : k0 = k
      · subst hk
        simp [JObj.removeKeys, h0, JObj.lookup]
      · simp [JObj.removeKeys, h0, JObj.lookup, hk, JObj.lookup_removeKeys tl ign k]

theorem JObj.keysNodup_removeKeys : ∀ (o : JObj) (ign : List String),
    o.keysNodup = true → (o.removeKeys ign).keysNodup = true
  | .nil, _, _ => rfl
  | .cons k0 v tl, ign, h => by
    simp [JObj.keysNodup] at h
    by_cases h0 : k0 ∈ ign
    · simp only [JObj.removeKeys, if_pos h0]
      exact JObj.keysNodup_removeKeys tl ign h.2
    · simp only [JObj.removeKeys, if_neg h0, JObj.keysNodup, Bool.and_eq_true]
      refine ⟨?_, JObj.keysNodup_removeKeys tl ign h.2⟩
      rw [JObj.lookup_removeKeys tl ign k0, if_neg h0]
      simp [h.1]

theorem JObj.wfVals_removeKeys : ∀ (o : JObj) (ign : List String),
    o.wfVals = true → (o.removeKeys ign).wfVals = true
  | .nil, _, _ => rfl
  | .cons k0 v tl, ign, h => by
    simp [JObj.wfVals] at h
    by_cases h0 : k0 ∈ ign
    · simp only [JObj.removeKeys, if_pos h0]
      exact JObj.wfVals_removeKeys tl ign h.2
    · simp only [JObj.removeKeys, if_neg h0, JObj.wfVals, Bool.and_eq_true]
      exact ⟨h.1, JObj.wfVals_removeKeys tl ign h.2⟩

theorem JObj.wfv_obj_removeKeys (fs : JObj) (ign : List String)
    (h : Json.wfv (.obj fs) = true) : Json.wfv (.obj (fs.removeKeys ign)) = true := by
  simp [Json.wfv] at h ⊢
  exact ⟨JObj.keysNodup_removeKeys fs ign h.1, JObj.wfVals_removeKeys fs ign h.2⟩

/-! ### Python `==` coincides with canonical-form equality

On well-formed values, Python's structural equality (`Json.eqv`) holds
exactly when the sorted-key canonical forms are equal — i.e. exactly when
the `json.dumps(·, sort_keys=True)` serializations coincide. -/


mutual

theorem Json.eqv_iff_canon : ∀ (a b : Json), a.wfv = true → b.wfv = true →
    (Json.eqv a b = true ↔ a.canon = b.canon)
  | .null, .null, _, _ => by simp [Json.eqv, Json.canon]
  | .null, .num _, _, _ => by simp [Json.eqv, Json.canon]
  | .null, .str _, _, _ => by simp [Json.eqv, Json.canon]
  | .null, .arr _, _, _ => by simp [Json.eqv, Json.canon]
  | .null, .obj _, _, _ => by simp [Json.eqv, Json.canon]
  | .num _, .null, _, _ => by simp [Json.eqv, Json.canon]
  | .num _, .num _, _, _ => by simp [Json.eqv, Json.canon]
  | .num _, .str _, _, _ => by simp [Json.eqv, Json.canon]
  | .num _, .arr _, _, _ => by simp [Json.eqv, Json.canon]
  | .num _, .obj _, _, _ => by simp [Json.eqv, Json.canon]
  | .str _, .null, _, _ => by simp [Json.eqv, Json.canon]
  | .str _, .num _, _, _ => by simp [Json.eqv, Json.canon]
  | .str _, .str _, _, _ => by simp [Json.eqv, Json.canon]
  | .str _, .arr _, _, _ => by simp [Json.eqv, Json.canon]
  | .str _, .obj _, _, _ => by simp [Json.eqv, Json.canon]
  | .arr _, .null, _, _ => by simp [Json.eqv, Json.canon]
  | .arr _, .num _, _, _ => by simp [Json.eqv, Json.canon]
  | .arr _, .str _, _, _ => by simp [Json.eqv, Json.canon]
  | .arr xs, .arr ys, ha, hb => by
    simp only [Json.eqv, Json.canon, Json.arr.injEq]
    exact JArr.eqv_iff_canon_elems xs ys (by simpa [Json.wfv] using ha)
      (by simpa [Json.wfv] using hb)
  | .arr _, .obj _, _, _ => by simp [Json.eqv, Json.canon]
  | .obj _, .null, _, _ => by simp [Json.eqv, Json.canon]
  | .obj _, .num _, _, _ => by simp [Json.eqv, Json.canon]
  | .obj _, .str _, _, _ => by simp [Json.eqv, Json.canon]
  | .obj _, .arr _, _, _ => by simp [Json.eqv, Json.canon]
  | .obj fs, .obj gs, ha, hb => by
    rw [Json.wfv, Bool.and_eq_true] at ha hb
    have hndf := (JObj.keysNodup_iff fs).mp ha.1
    have hndg := (JObj.keysNodup_iff gs).mp hb.1
    simp only [Json.eqv, Json.canon, Json.obj.injEq, Bool.and_eq_true, decide_eq_true_eq]
    constructor
    · rintro ⟨hlen, hall⟩
      apply JObj.sorted_lookup_ext
      · exact sortedLt_of_sortedLe_nodup (JObj.keys_sortByKey_sorted _)
          (((JObj.keys_sortByKey_perm _).nodup_iff).mpr
            (by rw [JObj.keys_canonFields]; exact hndf))
      · exact sortedLt_of_sortedLe_nodup (JObj.keys_sortByKey_sorted _)
          (((JObj.keys_sortByKey_perm _).nodup_iff).mpr
            (by rw [JObj.keys_canonFields]; exact hndg))
      · intro k
        rw [JObj.lookup_sortByKey, JObj.lookup_sortByKey, JObj.lookup_canonFields,
          JObj.lookup_canonFields]
        cases hfk : fs.lookup k with
        | some v =>
          obtain ⟨w, hw, hevw⟩ := JObj.eqvAll_lookup fs gs k v hall hfk
          rw [hw]
          simp only [Option.map_some']
          have hcvw := (Json.eqv_iff_canon v w (JObj.wfVals_lookup fs k v ha.2 hfk)
            (JObj.wfVals_lookup gs k w hb.2 hw)).mp hevw
          rw [hcvw]
        | none =>
          have hsub : ∀ x ∈ fs.keys, x ∈ gs.keys := by
            intro x hx
            rw [JObj.mem_keys_iff] at hx
            cases hfx : fs.lookup x with
            | none => rw [hfx] at hx; simp at hx
            | some v =>
              obtain ⟨w, hw, _⟩ := JObj.eqvAll_lookup fs gs x v hall hfx
              rw [JObj.mem_keys_iff, hw]
              rfl
          have hrev := mem_of_subset_of_length fs.keys gs.keys hndf hndg hsub
            (by rw [JObj.keys_length, JObj.keys_length, hlen])
          have hkg : gs.lookup k = none := by
            apply JObj.lookup_eq_none
            intro hc
            have := hrev k hc
            rw [JObj.mem_keys_iff, hfk] at this
            simp at this
          rw [hkg]
    · intro h
      have hlook : ∀ k, (fs.lookup k).map Json.canon = (gs.lookup k).map Json.canon := by
        intro k
        have hcongr := congrArg (fun o => JObj.lookup o k) h
        simpa [JObj.lookup_sortByKey, JObj.lookup_canonFields] using hcongr
      have hlen : fs.length = gs.length := by
        calc fs.length
            = fs.keys.length := (JObj.keys_length fs).symm
          _ = fs.canonFields.keys.length := by rw [JObj.keys_canonFields]
          _ = fs.canonFields.sortByKey.keys.length :=
              ((JObj.keys_sortByKey_perm fs.canonFields).length_eq).symm
          _ = gs.canonFields.sortByKey.keys.length := by rw [h]
          _ = gs.canonFields.keys.length :=
              (JObj.keys_sortByKey_perm gs.canonFields).length_eq
          _ = gs.keys.length := by rw [JObj.keys_canonFields]
          _ = gs.length := JObj.keys_length gs
      refine ⟨hlen, ?_⟩
      apply JObj.eqvAll_of_pointwise fs gs ha.1 ha.2 hb.2
      intro k v hv
      have hvk := hlook k
      rw [hv] at hvk
      simp only [Option.map_some'] at hvk
      cases hgk : gs.lookup k with
      | none => rw [hgk] at hvk; simp at hvk
      | some w =>
        rw [hgk] at hvk
        simp only [Option.map_some'] at hvk
        exact ⟨w, rfl, Option.some.inj hvk⟩
termination_by a b => sizeOf a + sizeOf b
decreasing_by
  · simp
    all_goals omega
  · have h1 := JObj.lookup_sizeOf fs k v hfk
    have h2 := JObj.lookup_sizeOf gs k w hw
    simp
    all_goals omega
  · simp
    all_goals omega

theorem JArr.eqv_iff_canon_elems : ∀ (xs ys : JArr), xs.wfv = true → ys.wfv = true →
    (JArr.eqv xs ys = true ↔ xs.canon = ys.canon)
  | .nil, .nil, _, _ => by simp [JArr.eqv, JArr.canon]
  | .nil, .cons _ _, _, _ => by simp [JArr.eqv, JArr.canon]
  | .cons _ _, .nil, _, _ => by simp [JArr.eqv, JArr.canon]
  | .cons x xs', .cons y ys', ha, hb => by
    rw [JArr.wfv, Bool.and_eq_true] at ha hb
    simp only [JArr.eqv, JArr.canon, JArr.cons.injEq, Bool.and_eq_true]
    rw [Json.eqv_iff_canon x y ha.1 hb.1, JArr.eqv_iff_canon_elems xs' ys' ha.2 hb.2]
termination_by xs ys => sizeOf xs + sizeOf ys
decreasing_by
  all_goals simp
  all_goals omega

theorem JObj.eqvAll_of_pointwise : ∀ (fs gs : JObj), fs.keysNodup = true →
    fs.wfVals = true → gs.wfVals = true →
    (∀ k v, fs.lookup k = some v → ∃ w, gs.lookup k = some w ∧ v.canon = w.canon) →
    JObj.eqvAll fs gs = true
  | .nil, gs, _, _, _, _ => by rw [JObj.eqvAll]
  | .cons k v tl, gs, hnd, hwf, hwg, hpt => by
    rw [JObj.keysNodup, Bool.and_eq_true] at hnd
    rw [JObj.wfVals, Bool.and_eq_true] at hwf
    obtain ⟨w, hw, hcw⟩ := hpt k v (by simp [JObj.lookup])
    rw [JObj.eqvAll, Bool.and_eq_true]
    constructor
    · rw [hw]
      exact (Json.eqv_iff_canon v w hwf.1 (JObj.wfVals_lookup gs k w hwg hw)).mpr hcw
    · apply JObj.eqvAll_of_pointwise tl gs hnd.2 hwf.2 hwg
      intro k' v' hv'
      have hkk : k ≠ k' := by
        intro e
        subst e
        rw [hv'] at hnd
        simp at hnd
      exact hpt k' v' (by rw [JObj.lookup, if_neg hkk]; exact hv')
termination_by fs gs => sizeOf fs + sizeOf gs
decreasing_by
  · have h2 := JObj.lookup_sizeOf gs k w hw
    simp
    all_goals omega
  · simp
    all_goals omega

end

/-! ## The change detector -/

/-- The generic change test both scrapers instantiate (spec contract
`differs(new_record, old_record, ignored_fields)`): strip the keys in
`ignored` at the top level of both records, then compare with Python `==`. -/
def differs (ignored : List String) (new_record old_record : JObj) : Bool :=
  !Json.eqv (.obj (new_record.removeKeys ignored)) (.obj (old_record.removeKeys ignored))

/-- `data_changed(new_data, old_data)` from `src/scrapers/registry_scraper.py`
lines 185-189: copies of both records without the top-level `scraped_at` key
are compared with `!=`. -/
def data_changed (new_data old_data : JObj) : Bool :=
  differs ["scraped_at"] new_data old_data

/-- The fields `RightMoveScraper._has_changed` strips before comparing
(rightmove.py line 221). -/
def rmIgnoreFields : List String := ["source", "scraped_at", "postcode", "updateDate"]

/-- The core comparison of `RightMoveScraper._has_changed` (rightmove.py
lines 220-237): strip the ignored fields at top level, serialize both
records with `json.dumps(·, sort_keys=True)` and compare the strings —
i.e. compare sorted-key canonical forms. -/
def rmCoreChanged (latest_prop new_prop : JObj) : Bool :=
  decide (Json.canon (.obj (latest_prop.removeKeys rmIgnoreFields)) ≠
    Json.canon (.obj (new_prop.removeKeys rmIgnoreFields)))

/-! ## The registry snapshot store (`save_results`) -/

/-- Contents of one stored version file: a parseable JSON record, or
malformed text that `json.load` rejects. -/
inductive FileVal where
  | good (record : JObj) : FileVal
  | bad : FileVal
deriving DecidableEq

/-- The `register-output` directory: a finite set of files, keyed by entity
key and version ordinal (file `{key}_{version}.json`). -/
abbrev RegFiles := List ((String × Nat) × FileVal)

/-- Read file `{key}_{version}.json`, if present. -/
def getF : RegFiles → String → Nat → Option FileVal
  | [], _, _ => none
  | e :: tl, key, version =>
    if e.1 = (key, version) then some e.2 else getF tl key version

/-- Write file `{key}_{version}.json`, replacing any previous content. -/
def putF : RegFiles → String → Nat → FileVal → RegFiles
  | [], key, version, c => [((key, version), c)]
  | e :: tl, key, version, c =>
    if e.1 = (key, version) then ((key, version), c) :: tl
    else e :: putF tl key version c

/-- One past the largest version ordinal of any file in the directory; no
file exists at this ordinal or beyond, so the version scan always halts
before it. -/
def verBound (fs : RegFiles) : Nat :=
  (fs.map (fun e => e.1.2)).foldr max 0 + 1

/-- The loop `while ({license_num}_{version}.json).exists(): version += 1`
starting at `v`, running for at most `fuel` steps. -/
def scanFree (fs : RegFiles) (key : String) : Nat → Nat → Nat
  | 0, v => v
  | fuel + 1, v => if getF fs key v = none then v else scanFree fs key fuel (v + 1)

/-- `find_next_version` (registry_scraper.py lines 177-182, inlined again in
`save_results` lines 206-212): the least `v` such that no file
`{key}_{v}.json` exists. -/
def find_next_version (fs : RegFiles) (key : String) : Nat :=
  scanFree fs key (verBound fs + 1) 0

theorem getF_lt_verBound : ∀ (fs : RegFiles) (key : String) (v : Nat),
    (getF fs key v).isSome = true → v < verBound fs
  | [], key, v, h => by simp [getF] at h
  | e :: tl, key, v, h => by
    rw [getF] at h
    by_cases he : e.1 = (key, v)
    · have hv : e.1.2 = v := by rw [he]
      simp only [verBound, List.map_cons, List.foldr_cons]
      omega
    · rw [if_neg he] at h
      have := getF_lt_verBound tl key v h
      simp only [verBound, List.map_cons, List.foldr_cons] at *
      omega

theorem scanFree_spec : ∀ (fs : RegFiles) (key : String) (fuel v : Nat),
    (∃ w, v ≤ w ∧ w < v + fuel ∧ getF fs key w = none) →
    getF fs key (scanFree fs key fuel v) = none ∧ v ≤ scanFree fs key fuel v ∧
      ∀ u, v ≤ u → u < scanFree fs key fuel v → (getF fs key u).isSome
  | fs, key, 0, v, h => by
    obtain ⟨w, h1, h2, _⟩ := h
    omega
  | fs, key, fuel + 1, v, h => by
    rw [scanFree]
    by_cases h0 : getF fs key v = none
    · rw [if_pos h0]
      exact ⟨h0, le_refl v, fun u h1 h2 => by omega⟩
    · rw [if_neg h0]
      have hrec := scanFree_spec fs key fuel (v + 1) (by
        obtain ⟨w, h1, h2, h3⟩ := h
        refine ⟨w, ?_, by omega, h3⟩
        rcases Nat.eq_or_lt_of_le h1 with he | hl
        · exact absurd (he ▸ h3) h0
        · omega)
      refine ⟨hrec.1, by omega, fun u h1 h2 => ?_⟩
      rcases Nat.eq_or_lt_of_le h1 with he | hl
      · subst he
        exact Option.isSome_iff_ne_none.mpr h0
      · exact hrec.2.2 u hl h2

theorem find_next_version_spec (fs : RegFiles) (key : String) :
    getF fs key (find_next_version fs key) = none ∧
      ∀ u, u < find_next_version fs key → (getF fs key u).isSome := by
  have h := scanFree_spec fs key (verBound fs + 1) 0
    ⟨verBound fs, by omega, by omega, by
      cases hb : getF fs key (verBound fs) with
      | none => rfl
      | some c =>
        have := getF_lt_verBound fs key (verBound fs) (by rw [hb]; rfl)
        omega⟩
  exact ⟨h.1, fun u hu => h.2.2 u (by omega) hu⟩

/-- `prop.get("details", {}).get("licence_number", "unknown")`: the entity
key value of a scraped registry record (save_results lines 196-197).  When
`details` is absent the default `{}` yields the sentinel; `scrape_postcode`
always stores a mapping under `details`, so no other shape occurs. -/
def licence_value (prop : JObj) : Json :=
  match prop.lookup "details" with
  | some (.obj d) => (d.lookup "licence_number").getD (.str "unknown")
  | _ => .str "unknown"

/-- The entity key as it appears in the file name `f"{license_num}_..."`. -/
def licence_key (prop : JObj) : String :=
  (licence_value prop).pyStr

/-- The record `save_results` persists (lines 199-204): address, postcode
and details of the scraped property plus a fresh `scraped_at` timestamp. -/
def prop_to_save (prop : JObj) (now : String) : JObj :=
  .cons "address" ((prop.lookup "address").getD .null)
    (.cons "postcode" ((prop.lookup "postcode").getD .null)
      (.cons "details" ((prop.lookup "details").getD (.obj .nil))
        (.cons "scraped_at" (.str now) .nil)))

/-- Outcome of saving one record: the updated directory, the entity key,
the version ordinal written and whether a new version file was created. -/
structure SaveOutcome where
  files : RegFiles
  key : String
  version : Nat
  created : Bool
deriving DecidableEq

/-- One iteration of the `for prop in properties` loop of `save_results`
(registry_scraper.py lines 196-239) for record `prop` at time `now`.
`.error ()` is the `json.load` exception on a malformed latest version
file, which propagates out of `save_results`; nothing has been written in
that case.  (The `none` arm is unreachable: when the scan returns
`version > 0`, the file at `version - 1` exists.) -/
def saveProp (now : String) (fs : RegFiles) (prop : JObj) : Except Unit SaveOutcome :=
  let license_num := licence_key prop
  let pts := prop_to_save prop now
  let version := find_next_version fs license_num
  if version > 0 then
    let latest_version := version - 1
    match getF fs license_num latest_version with
    | some (.good old_data) =>
      if data_changed pts old_data then
        .ok ⟨putF fs license_num version (.good pts), license_num, version, true⟩
      else
        .ok ⟨putF fs license_num latest_version
              (.good (old_data.set "scraped_at" (.str now))),
            license_num, latest_version, false⟩
    | some .bad => .error ()
    | none => .error ()
  else
    .ok ⟨putF fs license_num 0 (.good pts), license_num, 0, true⟩

/-- `save_results(properties)`: iterate `saveProp` over the list; an
exception aborts the remaining records, but files already written stay on
disk.  Returns the final directory and whether the call raised.  (The
per-record `datetime.now()` timestamps of one call are modelled as equal.) -/
def save_results (now : String) : List JObj → RegFiles → RegFiles × Bool
  | [], fs => (fs, false)
  | prop :: rest, fs =>
    match saveProp now fs prop with
    | .ok out => save_results now rest out.files
    | .error _ => (fs, true)

/-- The directory after one `saveProp`, unchanged when the call raised. -/
def stepSave (now : String) (prop : JObj) (fs : RegFiles) : RegFiles :=
  match saveProp now fs prop with
  | .ok out => out.files
  | .error _ => fs

/-- The directory after a sequence of saves starting from `fs`. -/
def runSaves : List (String × JObj) → RegFiles → RegFiles
  | [], fs => fs
  | (now, prop) :: ops, fs => runSaves ops (stepSave now prop fs)

theorem getF_putF_same : ∀ (fs : RegFiles) (key : String) (v : Nat) (c : FileVal),
    getF (putF fs key v c) key v = some c
  | [], key, v, c => by simp [putF, getF]
  | e :: tl, key, v, c => by
    by_cases he : e.1 = (key, v)
    · simp [putF, he, getF]
    · simp [putF, he, getF, getF_putF_same tl key v c]

theorem getF_putF_other : ∀ (fs : RegFiles) (key : String) (v : Nat) (c : FileVal)
    (key' : String) (v' : Nat), (key', v') ≠ (key, v) →
    getF (putF fs key v c) key' v' = getF fs key' v'
  | [], key, v, c, key', v', h => by simp [putF, getF, h.symm]
  | e :: tl, key, v, c, key', v', h => by
    by_cases he : e.1 = (key, v)
    · rw [putF, if_pos he, getF, if_neg (by simpa using h.symm), getF,
        if_neg (by rw [he]; simpa using h.symm)]
    · rw [putF, if_neg he, getF, getF]
      by_cases he' : e.1 = (key', v')
      · rw [if_pos he', if_pos he']
      · rw [if_neg he', if_neg he', getF_putF_other tl key v c key' v' h]

/-- The version files stored for `key` are exactly the ordinals below `n`. -/
def ContiguousAt (fs : RegFiles) (key : String) (n : Nat) : Prop :=
  ∀ v, (getF fs key v).isSome = true ↔ v < n

/-- Every entity's version ordinals are contiguous starting at 0. -/
def Contiguous (fs : RegFiles) : Prop :=
  ∀ key, ∃ n, ContiguousAt fs key n

theorem find_next_version_of_contiguous (fs : RegFiles) (key : String) (n : Nat)
    (h : ContiguousAt fs key n) : find_next_version fs key = n := by
  obtain ⟨h1, h2⟩ := find_next_version_spec fs key
  rcases Nat.lt_trichotomy (find_next_version fs key) n with hlt | heq | hgt
  · have := (h _).mpr hlt
    rw [h1] at this
    simp at this
  · exact heq
  · have := h2 n hgt
    rw [h n] at this
    omega

theorem saveProp_first (now : String) (fs : RegFiles) (prop : JObj)
    (h : ∀ v, getF fs (licence_key prop) v = none) :
    saveProp now fs prop = .ok ⟨putF fs (licence_key prop) 0
      (.good (prop_to_save prop now)), licence_key prop, 0, true⟩ := by
  have hc : ContiguousAt fs (licence_key prop) 0 := by
    intro v
    rw [h v]
    simp
  rw [saveProp]
  rw [find_next_version_of_contiguous fs (licence_key prop) 0 hc]
  simp

theorem saveProp_unchanged (now : String) (fs : RegFiles) (prop : JObj) (n : Nat)
    (old : JObj) (hc : ContiguousAt fs (licence_key prop) n) (hn : 0 < n)
    (hlatest : getF fs (licence_key prop) (n - 1) = some (.good old))
    (hch : data_changed (prop_to_save prop now) old = false) :
    saveProp now fs prop = .ok ⟨putF fs (licence_key prop) (n - 1)
      (.good (old.set "scraped_at" (.str now))), licence_key prop, n - 1, false⟩ := by
  rw [saveProp]
  rw [find_next_version_of_contiguous fs (licence_key prop) n hc]
  rw [if_pos hn]
  simp [hlatest, hch]

theorem saveProp_changed (now : String) (fs : RegFiles) (prop : JObj) (n : Nat)
    (old : JObj) (hc : ContiguousAt fs (licence_key prop) n) (hn : 0 < n)
    (hlatest : getF fs (licence_key prop) (n - 1) = some (.good old))
    (hch : data_changed (prop_to_save prop now) old = true) :
    saveProp now fs prop = .ok ⟨putF fs (licence_key prop) n
      (.good (prop_to_save prop now)), licence_key prop, n, true⟩ := by
  rw [saveProp]
  rw [find_next_version_of_contiguous fs (licence_key prop) n hc]
  rw [if_pos hn]
  simp [hlatest, hch]

theorem saveProp_corrupt (now : String) (fs : RegFiles) (prop : JObj) (n : Nat)
    (hc : ContiguousAt fs (licence_key prop) n) (hn : 0 < n)
    (hlatest : getF fs (licence_key prop) (n - 1) = some .bad) :
    saveProp now fs prop = .error () := by
  rw [saveProp]
  rw [find_next_version_of_contiguous fs (licence_key prop) n hc]
  rw [if_pos hn]
  simp [hlatest]

theorem stepSave_preserves (now : String) (prop : JObj) (fs : RegFiles)
    (hc : Contiguous fs) :
    Contiguous (stepSave now prop fs) ∧
    (∀ key v, (getF fs key v).isSome = true →
      (getF (stepSave now prop fs) key v).isSome = true) ∧
    (∀ key v, v + 1 < find_next_version fs key →
      getF (stepSave now prop fs) key v = getF fs key v) := by
  obtain ⟨n, hcn⟩ := hc (licence_key prop)
  have hfnv := find_next_version_of_contiguous fs (licence_key prop) n hcn
  have hmain : (∃ wv : Nat, ∃ c : FileVal, n - 1 ≤ wv ∧
        stepSave now prop fs = putF fs (licence_key prop) wv c ∧
        ((getF (putF fs (licence_key prop) wv c) (licence_key prop) wv).isSome = true) ∧
        (ContiguousAt (putF fs (licence_key prop) wv c) (licence_key prop) (max n (wv + 1)))) ∨
      stepSave now prop fs = fs := by
    rcases Nat.eq_zero_or_pos n with h0 | hpos
    · subst h0
      left
      refine ⟨0, .good (prop_to_save prop now), by omega, ?_, ?_, ?_⟩
      · rw [stepSave, saveProp_first now fs prop (fun v => by
          have := hcn v
          simp at this
          exact Option.not_isSome_iff_eq_none.mp (by rw [this]; simp))]
      · rw [getF_putF_same]
        rfl
      · intro v
        rcases Nat.eq_zero_or_pos v with hv | hv
        · subst hv
          rw [getF_putF_same]
          simp
        · rw [getF_putF_other fs _ _ _ _ v (by simp; omega)]
          rw [hcn v]
          omega
    · cases hlatest : getF fs (licence_key prop) (n - 1) with
      | none =>
        have := (hcn (n - 1)).mpr (by omega)
        rw [hlatest] at this
        simp at this
      | some c =>
        cases c with
        | bad =>
          right
          rw [stepSave, saveProp_corrupt now fs prop n hcn hpos hlatest]
        | good old =>
          cases hch : data_changed (prop_to_save prop now) old with
          | true =>
            left
            refine ⟨n, .good (prop_to_save prop now), by omega, ?_, ?_, ?_⟩
            · rw [stepSave, saveProp_changed now fs prop n old hcn hpos hlatest hch]
            · rw [getF_putF_same]
              rfl
            · intro v
              by_cases hv : v = n
              · subst hv
                rw [getF_putF_same]
                simp
              · rw [getF_putF_other fs _ _ _ _ v (by simp [hv])]
                rw [hcn v]
                omega
          | false =>
            left
            refine ⟨n - 1, .good (old.set "scraped_at" (.str now)), by omega, ?_, ?_, ?_⟩
            · rw [stepSave, saveProp_unchanged now fs prop n old hcn hpos hlatest hch]
            · rw [getF_putF_same]
              rfl
            · intro v
              by_cases hv : v = n - 1
              · subst hv
                rw [getF_putF_same]
                simp
              · rw [getF_putF_other fs _ _ _ _ v (by simp [hv])]
                rw [hcn v]
                omega
  rcases hmain with ⟨wv, c, hwv, heq, hsome, hcont⟩ | heq
  · refine ⟨?_, ?_, ?_⟩
    · intro key
      by_cases hkey : key = licence_key prop
      · subst hkey
        exact ⟨max n (wv + 1), heq ▸ hcont⟩
      · obtain ⟨m, hm⟩ := hc key
        refine ⟨m, fun v => ?_⟩
        rw [heq, getF_putF_other fs _ _ _ _ v (by simp [hkey])]
        exact hm v
    · intro key v hv
      by_cases hkv : (key, v) = (licence_key prop, wv)
      · rw [heq]
        obtain ⟨h1, h2⟩ := Prod.mk.injEq .. ▸ hkv
        subst h1
        subst h2
        exact hsome
      · rw [heq, getF_putF_other fs _ _ _ _ v hkv]
        exact hv
    · intro key v hv
      by_cases hkey : key = licence_key prop
      · subst hkey
        rw [hfnv] at hv
        rw [heq, getF_putF_other fs _ _ _ _ v (by simp; intro _; omega)]
      · rw [heq, getF_putF_other fs _ _ _ _ v (by simp [hkey])]
  · rw [heq]
    exact ⟨hc, fun _ _ h => h, fun _ _ _ => rfl⟩

theorem runSaves_contiguous : ∀ (ops : List (String × JObj)) (fs : RegFiles),
    Contiguous fs → Contiguous (runSaves ops fs)
  | [], fs, hc => hc
  | (now, prop) :: ops, fs, hc =>
    runSaves_contiguous ops (stepSave now prop fs) (stepSave_preserves now prop fs hc).1

theorem contiguous_nil : Contiguous [] :=
  fun _ => ⟨0, fun v => by simp [getF]⟩

/-! ## The rightmove property store (`RightMoveScraper.run`)

Files `rightmove_{property_id}-{version}.json` under `output/properties`,
modelled in the same directory type with the property id rendered as a
string (exactly the f-string interpolation the code uses for file names and
glob patterns). -/

/-- Version ordinals (with contents) of the files matching the glob
`rightmove_{pid}-*.json`, as parsed back by the regex `-(\d+)\.json$`
(rightmove.py lines 179-191, 207-214). -/
def rmVersions (fs : RegFiles) (pid : String) : List (Nat × FileVal) :=
  (fs.filter (fun e => e.1.1 == pid)).map (fun e => (e.1.2, e.2))

/-- `_get_next_version` (rightmove.py lines 173-193): 0 on first pass, else
the maximum parsed version number plus one. -/
def rmGetNextVersion (fs : RegFiles) (pid : String) : Nat :=
  match rmVersions fs pid with
  | [] => 0
  | l => (l.map Prod.fst).foldl max 0 + 1

/-- The file name `f"rightmove_{property_id}-{version}.json"`. -/
def rmFileName (pid : String) (v : Nat) : String :=
  "rightmove_" ++ pid ++ "-" ++ toString v ++ ".json"

/-- Python string `<` (lexicographic by code point), phrased on the
character lists so that it computes by evaluation. -/
def strLt (a b : String) : Bool := decide (a.data < b.data)

theorem strLt_iff (a b : String) : strLt a b = true ↔ a < b := by
  rw [String.lt_iff_toList_lt]
  simp [strLt]

/-- `sorted(props_dir.glob(pattern))[-1]`: the stored version whose file
name sorts last in Python string order. -/
def rmLatestByName (fs : RegFiles) (pid : String) : Option (Nat × FileVal) :=
  (rmVersions fs pid).foldl (fun acc e =>
    match acc with
    | none => some e
    | some a => if strLt (rmFileName pid a.1) (rmFileName pid e.1) then some e else some a) none

/-- `_has_changed` (rightmove.py lines 195-240): `True` for a property with
no stored versions; otherwise strip-and-compare against the file whose name
sorts last; any exception while reading or parsing that file is logged as a
warning and the property is treated as changed. -/
def rmHasChanged (fs : RegFiles) (pid : String) (core_prop_data : JObj) : Bool :=
  match rmLatestByName fs pid with
  | none => true
  | some (_, .good latest) => rmCoreChanged latest core_prop_data
  | some (_, .bad) => true

/-- The record the run loop persists (rightmove.py lines 343-351): `source`,
`scraped_at`, `postcode`, then every field of the scraped property except
`photos_local` — a Python dict literal, where later keys override earlier
ones. -/
def rmPropJson (source scraped_at postcode : String) (prop : JObj) : JObj :=
  JObj.dictUpdate
    (.cons "source" (.str source)
      (.cons "scraped_at" (.str scraped_at)
        (.cons "postcode" (.str postcode) .nil)))
    (prop.removeKeys ["photos_local"])

/-- One iteration of the `for prop in result["properties"]` loop of
`RightMoveScraper.run` (lines 328-359): skip a property without a truthy
`id`; skip entirely (no write of any kind) when `_has_changed` is false;
otherwise write the record at `_get_next_version`. -/
def rmSaveProp (source scraped_at postcode : String) (fs : RegFiles) (prop : JObj) :
    RegFiles :=
  match prop.lookup "id" with
  | none => fs
  | some idv =>
    if idv.falsy then fs
    else
      if rmHasChanged fs idv.pyStr prop then
        putF fs idv.pyStr (rmGetNextVersion fs idv.pyStr)
          (.good (rmPropJson source scraped_at postcode prop))
      else fs

/-- The rightmove store after a sequence of saves (the nested loops of
`RightMoveScraper.run` over postcodes and properties). -/
def rmRunSaves : List ((String × String × String) × JObj) → RegFiles → RegFiles
  | [], fs => fs
  | (meta, prop) :: ops, fs =>
    rmRunSaves ops (rmSaveProp meta.1 meta.2.1 meta.2.2 fs prop)

theorem memVersions_iff : ∀ (fs : RegFiles) (pid : String) (v : Nat) (c : FileVal),
    (v, c) ∈ rmVersions fs pid ↔ ((pid, v), c) ∈ fs
  | [], pid, v, c => by simp [rmVersions]
  | e :: tl, pid, v, c => by
    have htl := memVersions_iff tl pid v c
    simp only [rmVersions, List.filter_cons] at htl ⊢
    by_cases hp : e.1.1 = pid
    · rw [if_pos (by simpa using hp)]
      simp only [List.map_cons, List.mem_cons]
      rw [htl]
      constructor
      · rintro (he | h)
        · left
          have h1 : v = e.1.2 := congrArg Prod.fst he
          have h2 : c = e.2 := congrArg Prod.snd he
          rw [Prod.ext_iff, Prod.ext_iff]
          exact ⟨⟨hp.symm, h1⟩, h2⟩
        · right
          exact h
      · rintro (he | h)
        · left
          subst he
          rfl
        · right
          exact h
    · rw [if_neg (by simpa using hp)]
      rw [htl]
      simp only [List.mem_cons]
      constructor
      · intro h
        right
        exact h
      · rintro (he | h)
        · exfalso
          apply hp
          have := congrArg (fun x => x.1.1) he.symm
          simpa using this
        · exact h

theorem getF_isSome_iff_mem : ∀ (fs : RegFiles) (key : String) (v : Nat),
    (getF fs key v).isSome = true ↔ ∃ c, ((key, v), c) ∈ fs
  | [], key, v => by simp [getF]
  | e :: tl, key, v => by
    rw [getF]
    by_cases he : e.1 = (key, v)
    · rw [if_pos he]
      simp only [Option.isSome_some, true_iff]
      exact ⟨e.2, by rw [List.mem_cons]; left; rw [Prod.ext_iff]; exact ⟨he.symm, rfl⟩⟩
    · rw [if_neg he]
      rw [getF_isSome_iff_mem tl key v]
      constructor
      · rintro ⟨c, hc⟩
        exact ⟨c, List.mem_cons_of_mem e hc⟩
      · rintro ⟨c, hc⟩
        rw [List.mem_cons] at hc
        rcases hc with h | h
        · exfalso
          exact he (congrArg Prod.fst h.symm)
        · exact ⟨c, h⟩

theorem foldl_max_eq : ∀ (l : List Nat) (acc m : Nat), (m ∈ l ∨ m = acc) →
    (∀ x ∈ l, x ≤ m) → acc ≤ m → l.foldl max acc = m
  | [], acc, m, hmem, _, hacc => by
    rcases hmem with h | h
    · simp at h
    · simp [h.symm]
  | x :: xs, acc, m, hmem, hle, hacc => by
    rw [List.foldl_cons]
    have hx : x ≤ m := hle x (by simp)
    rcases hmem with h | h
    · rw [List.mem_cons] at h
      rcases h with h | h
      · exact foldl_max_eq xs (max acc x) m (Or.inr (by omega))
          (fun y hy => hle y (by simp [hy])) (by omega)
      · exact foldl_max_eq xs (max acc x) m (Or.inl h)
          (fun y hy => hle y (by simp [hy])) (by omega)
    · subst h
      exact foldl_max_eq xs (max m x) m (Or.inr (by omega))
        (fun y hy => hle y (by simp [hy])) (by omega)

theorem le_foldl_max : ∀ (l : List Nat) (acc x : Nat), x ∈ l → x ≤ l.foldl max acc
  | [], _, x, h => by simp at h
  | y :: ys, acc, x, h => by
    rw [List.foldl_cons]
    rw [List.mem_cons] at h
    have haux : ∀ (l : List Nat) (a : Nat), a ≤ l.foldl max a := by
      intro l
      induction l with
      | nil => simp
      | cons z zs ih =>
        intro a
        rw [List.foldl_cons]
        calc a ≤ max a z := by omega
          _ ≤ zs.foldl max (max a z) := ih (max a z)
    rcases h with h | h
    · rw [h]
      calc y ≤ max acc y := by omega
        _ ≤ ys.foldl max (max acc y) := haux ys (max acc y)
    · exact le_foldl_max ys (max acc y) x h

theorem getF_some_mem : ∀ (fs : RegFiles) (key : String) (v : Nat) (c : FileVal),
    getF fs key v = some c → ((key, v), c) ∈ fs
  | e :: tl, key, v, c, h => by
    rw [getF] at h
    by_cases he : e.1 = (key, v)
    · rw [if_pos he] at h
      have hec : e = ((key, v), c) := Prod.ext_iff.mpr ⟨he, Option.some.inj h⟩
      rw [← hec]
      exact List.mem_cons_self e tl
    · rw [if_neg he] at h
      exact List.mem_cons_of_mem e (getF_some_mem tl key v c h)

theorem rmGetNextVersion_of_contiguous (fs : RegFiles) (pid : String) (n : Nat)
    (h : ContiguousAt fs pid n) : rmGetNextVersion fs pid = n := by
  have hmem : ∀ v, (∃ c, (v, c) ∈ rmVersions fs pid) ↔ v < n := by
    intro v
    rw [← h v, getF_isSome_iff_mem]
    constructor
    · rintro ⟨c, hc⟩
      exact ⟨c, (memVersions_iff fs pid v c).mp hc⟩
    · rintro ⟨c, hc⟩
      exact ⟨c, (memVersions_iff fs pid v c).mpr hc⟩
  rcases Nat.eq_zero_or_pos n with h0 | hpos
  · subst h0
    have hnil : rmVersions fs pid = [] := by
      rw [List.eq_nil_iff_forall_not_mem]
      intro e he
      have := (hmem e.1).mp ⟨e.2, he⟩
      omega
    rw [rmGetNextVersion, hnil]
  · obtain ⟨c, hc⟩ := (hmem (n - 1)).mpr (by omega)
    cases hl : rmVersions fs pid with
    | nil => rw [hl] at hc; simp at hc
    | cons e l =>
      rw [rmGetNextVersion, hl]
      show ((e :: l).map Prod.fst).foldl max 0 + 1 = n
      have hfold : ((e :: l).map Prod.fst).foldl max 0 = n - 1 := by
        apply foldl_max_eq
        · left
          rw [List.mem_map]
          exact ⟨(n - 1, c), by rw [← hl]; exact hc, rfl⟩
        · intro x hx
          rw [List.mem_map] at hx
          obtain ⟨p, hp, hpx⟩ := hx
          have := (hmem p.1).mp ⟨p.2, by rw [hl]; exact hp⟩
          omega
        · omega
      rw [hfold]
      omega

theorem rmSaveProp_preserves_existing (source scraped_at postcode : String)
    (fs : RegFiles) (prop : JObj) (key : String) (v : Nat)
    (h : (getF fs key v).isSome = true) :
    getF (rmSaveProp source scraped_at postcode fs prop) key v = getF fs key v := by
  rw [rmSaveProp]
  cases prop.lookup "id" with
  | none => rfl
  | some idv =>
    by_cases hf : idv.falsy
    · simp [hf]
    · simp only [hf, Bool.false_eq_true, if_false]
      by_cases hch : rmHasChanged fs idv.pyStr prop
      · simp only [hch, if_true]
        apply getF_putF_other
        intro he
        have h1 : key = idv.pyStr := congrArg Prod.fst he
        have h2 : v = rmGetNextVersion fs idv.pyStr := congrArg Prod.snd he
        rw [← h1] at h2
        obtain ⟨c, hc⟩ := Option.isSome_iff_exists.mp h
        have hcm : (v, c) ∈ rmVersions fs key := (memVersions_iff fs key v c).mpr
          (getF_some_mem fs key v c hc)
        cases hl : rmVersions fs key with
        | nil => rw [hl] at hcm; simp at hcm
        | cons e l =>
          rw [rmGetNextVersion, hl] at h2
          have hle : v ≤ ((e :: l).map Prod.fst).foldl max 0 := by
            apply le_foldl_max
            rw [List.mem_map]
            exact ⟨(v, c), by rw [← hl]; exact hcm, rfl⟩
          rw [show (match e :: l with
            | [] => 0
            | l => (l.map Prod.fst).foldl max 0 + 1) =
              ((e :: l).map Prod.fst).foldl max 0 + 1 from rfl] at h2
          omega
      · simp [hch]

theorem rmSaveProp_contiguous (source scraped_at postcode : String) (fs : RegFiles)
    (prop : JObj) (hc : Contiguous fs) :
    Contiguous (rmSaveProp source scraped_at postcode fs prop) := by
  rw [rmSaveProp]
  cases prop.lookup "id" with
  | none => exact hc
  | some idv =>
    by_cases hf : idv.falsy = true
    · simp only [hf, if_true]
      exact hc
    · simp only [hf, Bool.false_eq_true, if_false]
      by_cases hch : rmHasChanged fs idv.pyStr prop = true
      · simp only [hch, if_true]
        intro key
        obtain ⟨m, hm⟩ := hc idv.pyStr
        have hgnv := rmGetNextVersion_of_contiguous fs idv.pyStr m hm
        by_cases hkey : key = idv.pyStr
        · subst hkey
          refine ⟨m + 1, fun v => ?_⟩
          by_cases hv : v = m
          · subst hv
            rw [hgnv, getF_putF_same]
            simp
          · rw [hgnv, getF_putF_other fs _ _ _ _ v (by simp [hv])]
            rw [hm v]
            omega
        · obtain ⟨mk, hmk⟩ := hc key
          refine ⟨mk, fun v => ?_⟩
          rw [getF_putF_other fs _ _ _ _ v (by simp [hkey])]
          exact hmk v
      · simp only [hch, Bool.false_eq_true, if_false]
        exact hc

theorem rmRunSaves_contiguous : ∀ (ops : List ((String × String × String) × JObj))
    (fs : RegFiles), Contiguous fs → Contiguous (rmRunSaves ops fs)
  | [], _, hc => hc
  | (meta, prop) :: ops, fs, hc =>
    rmRunSaves_contiguous ops _ (rmSaveProp_contiguous meta.1 meta.2.1 meta.2.2 fs prop hc)

/-! ### The lexicographic "latest" file of `_has_changed`

`sorted(...)[-1]` sorts file-name strings; a version number renders as a
single digit only below 10, so the name order agrees with the ordinal order
only while a property has at most ten stored versions. -/

theorem listLt_append_left : ∀ (p x y : List Char), x < y → p ++ x < p ++ y
  | [], _, _, h => h
  | c :: p, x, y, h => by
    have ih := listLt_append_left p x y h
    change List.Lex (· < ·) (p ++ x) (p ++ y) at ih
    change List.Lex (· < ·) (c :: (p ++ x)) (c :: (p ++ y))
    exact List.Lex.cons ih

theorem toString_digitChar (a : Nat) (h : a ≤ 9) :
    toString a = String.mk [Nat.digitChar a] := by
  interval_cases a <;> decide

theorem digitChar_lt : ∀ a < 10, ∀ b < 10, a < b → Nat.digitChar a < Nat.digitChar b := by
  decide

theorem rmFileName_lt_of_lt (pid : String) (a b : Nat) (ha : a ≤ 9) (hb : b ≤ 9)
    (hab : a < b) : rmFileName pid a < rmFileName pid b := by
  rw [String.lt_iff_toList_lt]
  show (rmFileName pid a).data < (rmFileName pid b).data
  rw [rmFileName, rmFileName, toString_digitChar a ha, toString_digitChar b hb]
  rw [String.data_append, String.data_append, String.data_append, String.data_append,
    String.data_append, String.data_append]
  rw [List.append_assoc _ (String.mk [Nat.digitChar a]).data,
    List.append_assoc _ (String.mk [Nat.digitChar b]).data]
  apply listLt_append_left
  change List.Lex (· < ·) (Nat.digitChar a :: (".json").data)
    (Nat.digitChar b :: (".json").data)
  exact List.Lex.rel (digitChar_lt a (by omega) b (by omega) hab)

/-- The directory holds at most one file per name (always true on a real
file system, and preserved by every write). -/
def KeysNodupF (fs : RegFiles) : Prop := (fs.map (fun e => e.1)).Nodup

theorem getF_eq_of_mem_nodup : ∀ (fs : RegFiles), KeysNodupF fs →
    ∀ (key : String) (v : Nat) (c : FileVal), ((key, v), c) ∈ fs → getF fs key v = some c
  | [], _, key, v, c, h => by simp at h
  | e :: tl, hnd, key, v, c, h => by
    rw [List.mem_cons] at h
    rw [KeysNodupF, List.map_cons, List.nodup_cons] at hnd
    rw [getF]
    rcases h with h | h
    · rw [← h]
      simp
    · by_cases he : e.1 = (key, v)
      · exfalso
        apply hnd.1
        rw [he]
        exact List.mem_map_of_mem (fun x => x.1) h
      · rw [if_neg he]
        exact getF_eq_of_mem_nodup tl hnd.2 key v c h

theorem rmVersions_fst_nodup (fs : RegFiles) (hnd : KeysNodupF fs) (pid : String) :
    ((rmVersions fs pid).map Prod.fst).Nodup := by
  have h1 : ((fs.filter (fun e => e.1.1 == pid)).map (fun e => e.1)).Nodup :=
    List.Nodup.sublist (List.Sublist.map _ (List.filter_sublist fs)) hnd
  have h2 : (rmVersions fs pid).map Prod.fst =
      ((fs.filter (fun e => e.1.1 == pid)).map (fun e => e.1)).map (fun k => k.2) := by
    simp [rmVersions, List.map_map]
  rw [h2]
  apply List.Nodup.map_on _ h1
  intro x hx y hy hxy
  rw [List.mem_map] at hx hy
  obtain ⟨ex, hex, hx1⟩ := hx
  obtain ⟨ey, hey, hy1⟩ := hy
  rw [List.mem_filter] at hex hey
  have hxp : x.1 = pid := by
    rw [← hx1]
    exact eq_of_beq hex.2
  have hyp : y.1 = pid := by
    rw [← hy1]
    exact eq_of_beq hey.2
  rw [Prod.ext_iff]
  exact ⟨by rw [hxp, hyp], hxy⟩

theorem rmLatest_fold (pid : String) : ∀ (l : List (Nat × FileVal)) (a m : Nat × FileVal),
    ((a :: l).map Prod.fst).Nodup → (∀ x ∈ a :: l, x.1 ≤ 9) → m ∈ a :: l →
    (∀ x ∈ a :: l, x.1 ≤ m.1) →
    l.foldl (fun acc e =>
      match acc with
      | none => some e
      | some a2 =>
        if strLt (rmFileName pid a2.1) (rmFileName pid e.1) then some e else some a2)
      (some a) = some m
  | [], a, m, _, _, hm, _ => by
    simp at hm
    rw [List.foldl_nil, hm]
  | e :: l', a, m, hnd, h9, hm, hmax => by
    rw [List.foldl_cons]
    change List.foldl _
      (if strLt (rmFileName pid a.1) (rmFileName pid e.1) = true then some e else some a)
      l' = some m
    have hane : a.1 ≠ e.1 := by
      intro hc
      rw [List.map_cons, List.nodup_cons] at hnd
      exact hnd.1 (by rw [hc]; simp)
    have hnd' : ((e :: l').map Prod.fst).Nodup := by
      rw [List.map_cons, List.nodup_cons] at hnd
      exact hnd.2
    have hnda : ((a :: l').map Prod.fst).Nodup := by
      rw [List.map_cons, List.nodup_cons] at hnd hnd' ⊢
      rw [List.map_cons, List.nodup_cons] at hnd
      refine ⟨fun hc => hnd.1 (by simp [hc]), hnd'.2⟩
    rcases Nat.lt_or_ge a.1 e.1 with hlt | hge
    · rw [if_pos ((strLt_iff _ _).mpr
        (rmFileName_lt_of_lt pid a.1 e.1 (h9 a (by simp)) (h9 e (by simp)) hlt))]
      have hma : m ≠ a := by
        intro hc
        have := hmax e (by simp)
        rw [hc] at this
        omega
      apply rmLatest_fold pid l' e m hnd'
      · intro x hx
        apply h9
        rw [List.mem_cons] at hx ⊢
        rcases hx with h | h
        · right
          rw [h]
          simp
        · right
          exact List.mem_cons_of_mem e h
      · rw [List.mem_cons] at hm
        rcases hm with h | h
        · exact absurd h hma
        · exact h
      · intro x hx
        apply hmax
        rw [List.mem_cons] at hx ⊢
        rcases hx with h | h
        · right
          rw [h]
          simp
        · right
          exact List.mem_cons_of_mem e h
    · have he1 : e.1 < a.1 := by omega
      rw [if_neg (by
        intro hc
        rw [strLt_iff] at hc
        exact lt_asymm (rmFileName_lt_of_lt pid e.1 a.1 (h9 e (by simp)) (h9 a (by simp)) he1) hc)]
      have hme : m ≠ e := by
        intro hc
        have := hmax a (by simp)
        rw [hc] at this
        omega
      apply rmLatest_fold pid l' a m hnda
      · intro x hx
        apply h9
        rw [List.mem_cons] at hx ⊢
        rcases hx with h | h
        · left
          exact h
        · right
          exact List.mem_cons_of_mem e h
      · rw [List.mem_cons] at hm ⊢
        rcases hm with h | h
        · left
          exact h
        · rw [List.mem_cons] at h
          rcases h with h | h
          · exact absurd h hme
          · right
            exact h
      · intro x hx
        apply hmax
        rw [List.mem_cons] at hx ⊢
        rcases hx with h | h
        · left
          exact h
        · right
          exact List.mem_cons_of_mem e h

theorem rmLatestByName_of_contiguous (fs : RegFiles) (pid : String) (n : Nat)
    (hnd : KeysNodupF fs) (hc : ContiguousAt fs pid n) (hpos : 0 < n) (h10 : n ≤ 10)
    (c : FileVal) (hlatest : getF fs pid (n - 1) = some c) :
    rmLatestByName fs pid = some (n - 1, c) := by
  have hvnodup := rmVersions_fst_nodup fs hnd pid
  have hmem : ∀ p : Nat × FileVal, p ∈ rmVersions fs pid → p.1 < n := by
    intro p hp
    have hin : ((pid, p.1), p.2) ∈ fs := (memVersions_iff fs pid p.1 p.2).mp (by
      rw [Prod.mk.eta]
      exact hp)
    have : (getF fs pid p.1).isSome = true := by
      rw [getF_eq_of_mem_nodup fs hnd pid p.1 p.2 hin]
      rfl
    rw [hc p.1] at this
    exact this
  have hmemL : (n - 1, c) ∈ rmVersions fs pid :=
    (memVersions_iff fs pid (n - 1) c).mpr (getF_some_mem fs pid (n - 1) c hlatest)
  cases hl : rmVersions fs pid with
  | nil => rw [hl] at hmemL; simp at hmemL
  | cons a l' =>
    rw [rmLatestByName, hl, List.foldl_cons]
    show l'.foldl _ (some a) = some (n - 1, c)
    apply rmLatest_fold pid l' a (n - 1, c)
    · rw [← hl]
      exact hvnodup
    · intro x hx
      have := hmem x (by rw [hl]; exact hx)
      omega
    · rw [← hl]
      exact hmemL
    · intro x hx
      have := hmem x (by rw [hl]; exact hx)
      show x.1 ≤ n - 1
      omega

theorem JObj.lookup_set : ∀ (o : JObj) (key : String) (val : Json) (k : String),
    (o.set key val).lookup k = if key = k then some val else o.lookup k
  | .nil, key, val, k => by simp [JObj.set, JObj.lookup]
  | .cons k0 v0 tl, key, val, k => by
    by_cases h0 : k0 = key
    · subst h0
      by_cases hk : k0 = k <;> simp [JObj.set, JObj.lookup, hk]
    · by_cases hk : k0 = k
      · subst hk
        have : ¬ key = k0 := fun e => h0 e.symm
        simp [JObj.set, JObj.lookup, h0, this]
      · simp [JObj.set, JObj.lookup, h0, hk, JObj.lookup_set tl key val k]

theorem JObj.lookup_dictUpdate_none : ∀ (u b : JObj) (k : String),
    u.lookup k = none → (b.dictUpdate u).lookup k = b.lookup k
  | .nil, b, k, _ => rfl
  | .cons k0 v0 tl, b, k, h => by
    rw [JObj.lookup] at h
    by_cases h0 : k0 = k
    · rw [if_pos h0] at h
      simp at h
    · rw [if_neg h0] at h
      rw [JObj.dictUpdate, JObj.lookup_dictUpdate_none tl _ k h, JObj.lookup_set,
        if_neg h0]

theorem rmVersions_nil_of_none (fs : RegFiles) (pid : String)
    (h : ∀ v, getF fs pid v = none) : rmVersions fs pid = [] := by
  rw [List.eq_nil_iff_forall_not_mem]
  intro e he
  have hm := (memVersions_iff fs pid e.1 e.2).mp (by rw [Prod.mk.eta]; exact he)
  have : (getF fs pid e.1).isSome = true := (getF_isSome_iff_mem fs pid e.1).mpr ⟨e.2, hm⟩
  rw [h e.1] at this
  simp at this

/-! ## The cursor (`get_next_postcodes`, src/scrape_registry.py) -/

/-- `get_next_postcodes(postcodes, count)` (scrape_registry.py lines 45-69),
with the persisted cursor value passed explicitly (`load_state` reads
`last_postcode` from the state file).  Raises `ValueError` on an empty
list; `postcodes.index(...)` raising `ValueError` (cursor key edited away)
restarts at index 0. -/
def get_next_postcodes (postcodes : List String) (count : Nat)
    (last_postcode : Option String) : Except Unit (List String) :=
  if h : postcodes = [] then .error ()
  else
    let start_index :=
      match last_postcode with
      | none => 0
      | some lp =>
        if lp ∈ postcodes then (postcodes.indexOf lp + 1) % postcodes.length
        else 0
    .ok ((List.range count).map (fun i =>
      postcodes.get ⟨(start_index + i) % postcodes.length,
        Nat.mod_lt _ (List.length_pos.mpr h)⟩))

/-! ## The orchestrating loop of `scrape_registry.main` -/

/-- One run of the `for postcode in next_postcodes` loop of `main`
(scrape_registry.py lines 81-92), given the outcome of `scrape_postcode`
for each key.  After a successful scrape the state file is rewritten with
that key (`save_state`); there is no exception handler, so an exception
from `scrape_postcode` propagates out of `main` and aborts the run — the
remaining keys are not attempted, and the state file keeps its previous
value.  Returns the final cursor, the keys for which `scrape_postcode` was
invoked, and the error when the run aborted. -/
def runBatch (scrape : String → Except String Unit) :
    List String → Option String → Option String × List String × Option String
  | [], cursor => (cursor, [], none)
  | k :: ks, cursor =>
    match scrape k with
    | .error e => (cursor, [k], some e)
    | .ok _ =>
      let r := runBatch scrape ks (some k)
      (r.1, k :: r.2.1, r.2.2)

/-! ## `RightMoveScraper.scrape_postcode` -/

/-- The result dictionary of `scrape_postcode` (rightmove.py lines 100-106). -/
structure RMResult where
  source : String
  scraped_at : String
  postcode : String
  total_properties : Nat
  properties : List JObj
deriving DecidableEq

/-- The RightMove search URL for a location code (rightmove.py lines 88-91). -/
def rmSearchUrl (location_code : String) : String :=
  "https://www.rightmove.co.uk/property-to-rent/find.html?locationIdentifier=POSTCODE%5E"
    ++ location_code

/-- `RightMoveScraper.scrape_postcode` (rightmove.py lines 59-108).  `pcMap`
is the postcode→location-code mapping, `fetchPage` stands for `_fetch_page`
(an `.error` outcome models any exception escaping it).  A postcode without
a space raises `ValueError` before anything is fetched.  Inside the `try`,
a missing or falsy location code raises `ValueError`, which the bare
`except` swallows, leaving `properties = []`; a fetch failure likewise
leaves `properties = []`.  The second component lists the URLs fetched. -/
def scrape_postcode (pcMap : List (String × String))
    (fetchPage : String → Except String (List JObj)) (scraped_at : String)
    (postcode : String) : Except String RMResult × List String :=
  if !(postcode.data.contains ' ') then
    (.error ("Must use full postcode format (e.g., 'N19 3RU'), not outcode '"
      ++ postcode ++ "'"), [])
  else
    let fetched :=
      match List.lookup postcode pcMap with
      | none => ([], [])
      | some location_code =>
        if location_code.isEmpty then ([], [])
        else
          match fetchPage (rmSearchUrl location_code) with
          | .ok props => (props, [rmSearchUrl location_code])
          | .error _ => ([], [rmSearchUrl location_code])
    (.ok { source := "rightmove", scraped_at := scraped_at, postcode := postcode,
           total_properties := fetched.1.length, properties := fetched.1 }, fetched.2)

/-! ## Helpers connecting the comparators to canonical forms -/

theorem Json.eqv_eq_true_of_canon_eq (a b : Json) (ha : a.wfv = true) (hb : b.wfv = true)
    (h : a.canon = b.canon) : Json.eqv a b = true :=
  (Json.eqv_iff_canon a b ha hb).mpr h

theorem Json.eqv_eq_false_of_canon_ne (a b : Json) (ha : a.wfv = true) (hb : b.wfv = true)
    (h : a.canon ≠ b.canon) : Json.eqv a b = false := by
  cases he : Json.eqv a b
  · rfl
  · exact absurd ((Json.eqv_iff_canon a b ha hb).mp he) h

theorem data_changed_false_of (new_data old_data : JObj)
    (ha : Json.wfv (.obj (new_data.removeKeys ["scraped_at"])) = true)
    (hb : Json.wfv (.obj (old_data.removeKeys ["scraped_at"])) = true)
    (h : Json.canon (.obj (new_data.removeKeys ["scraped_at"])) =
      Json.canon (.obj (old_data.removeKeys ["scraped_at"]))) :
    data_changed new_data old_data = false := by
  rw [data_changed, differs, Json.eqv_eq_true_of_canon_eq _ _ ha hb h]
  rfl

theorem data_changed_true_of (new_data old_data : JObj)
    (ha : Json.wfv (.obj (new_data.removeKeys ["scraped_at"])) = true)
    (hb : Json.wfv (.obj (old_data.removeKeys ["scraped_at"])) = true)
    (h : Json.canon (.obj (new_data.removeKeys ["scraped_at"])) ≠
      Json.canon (.obj (old_data.removeKeys ["scraped_at"]))) :
    data_changed new_data old_data = true := by
  rw [data_changed, differs, Json.eqv_eq_false_of_canon_ne _ _ ha hb h]
  rfl

/-! ## Sample data for the concrete instances -/

/-- A scraped registry record with a licence number. -/
def sampleProp : JObj :=
  .cons "address" (.str "1 High St")
    (.cons "postcode" (.str "N1 1AA")
      (.cons "detail_url" (.str "/d/1")
        (.cons "details" (.obj (.cons "licence_number" (.str "ISL-1")
          (.cons "licence_type" (.str "HMO") .nil))) .nil)))

/-- The same property with a changed detail field. -/
def samplePropB : JObj :=
  .cons "address" (.str "1 High St")
    (.cons "postcode" (.str "N1 1AA")
      (.cons "detail_url" (.str "/d/1")
        (.cons "details" (.obj (.cons "licence_number" (.str "ISL-1")
          (.cons "licence_type" (.str "Selective") .nil))) .nil)))

/-- A registry record whose details lack a licence number. -/
def sampleNoLic : JObj :=
  .cons "address" (.str "2 Low St")
    (.cons "postcode" (.str "N1 1AB")
      (.cons "details" (.obj (.cons "uprn" (.str "100") .nil)) .nil))

/-- Another unidentifiable record, describing a different real-world entity. -/
def sampleNoLic2 : JObj :=
  .cons "address" (.str "3 Mid St")
    (.cons "postcode" (.str "N1 1AC")
      (.cons "details" (.obj (.cons "uprn" (.str "200") .nil)) .nil))

/-- A scraped rightmove property object. -/
def sampleRM : JObj := .cons "id" (.num 7) (.cons "price" (.num 100) .nil)

/-! ## C3 -/

/-- C3: For every entity identifier with no previously stored versions,
calling save stores the record as version 0 with the metadata timestamp
set, and returns ordinal 0 with created = True.  Both stores: the registry
`save_results` takes its first-version branch, and the rightmove run loop
writes version 0 (`_get_next_version` returns 0 on first pass,
`_has_changed` is true for a new property). -/
theorem c3_first_save_creates_version_zero
    (now : String) (fs : RegFiles) (prop : JObj)
    (hnone : ∀ v, getF fs (licence_key prop) v = none)
    (source scraped_at postcode : String) (rfs : RegFiles) (rprop : JObj) (idv : Json)
    (hid : rprop.lookup "id" = some idv) (hfal : idv.falsy = false)
    (hrnone : ∀ v, getF rfs idv.pyStr v = none) :
    (saveProp now fs prop = .ok ⟨putF fs (licence_key prop) 0
        (.good (prop_to_save prop now)), licence_key prop, 0, true⟩ ∧
      (prop_to_save prop now).lookup "scraped_at" = some (.str now)) ∧
    (rmSaveProp source scraped_at postcode rfs rprop =
        putF rfs idv.pyStr 0 (.good (rmPropJson source scraped_at postcode rprop)) ∧
      rmGetNextVersion rfs idv.pyStr = 0 ∧
      (rprop.lookup "scraped_at" = none →
        (rmPropJson source scraped_at postcode rprop).lookup "scraped_at" =
          some (.str scraped_at))) := by
  have hcr : ContiguousAt rfs idv.pyStr 0 := by
    intro v
    rw [hrnone v]
    simp
  have hgnv := rmGetNextVersion_of_contiguous rfs idv.pyStr 0 hcr
  refine ⟨⟨saveProp_first now fs prop hnone, rfl⟩, ?_, hgnv, ?_⟩
  · rw [rmSaveProp, hid]
    simp only [hfal, Bool.false_eq_true, if_false]
    have hchg : rmHasChanged rfs idv.pyStr rprop = true := by
      rw [rmHasChanged, rmLatestByName, rmVersions_nil_of_none rfs idv.pyStr hrnone]
      rfl
    rw [hchg, if_pos rfl, hgnv]
  · intro hnosc
    rw [rmPropJson, JObj.lookup_dictUpdate_none _ _ _ (by
      rw [JObj.lookup_removeKeys]
      simp [hnosc])]
    rfl

/-- Concrete instance of C3: first-ever save of a registry record and of a
rightmove property, both landing at ordinal 0 with created = True. -/
theorem c3_first_save_creates_version_zero_witness :
    saveProp "t0" [] sampleProp = .ok ⟨[(("ISL-1", 0), .good (prop_to_save sampleProp "t0"))],
      "ISL-1", 0, true⟩ ∧
    rmSaveProp "rightmove" "t0" "N1 1AA" [] sampleRM =
      [(("7", 0), .good (rmPropJson "rightmove" "t0" "N1 1AA" sampleRM))] ∧
    (rmPropJson "rightmove" "t0" "N1 1AA" sampleRM).lookup "scraped_at" =
      some (.str "t0") := by
  have h := c3_first_save_creates_version_zero "t0" [] sampleProp (fun v => rfl)
    "rightmove" "t0" "N1 1AA" [] sampleRM (.num 7) rfl rfl (fun v => rfl)
  exact ⟨h.1.1, h.2.1, h.2.2.2 rfl⟩

/-! ## C9 -/

/-- C9: a scraped record whose details lack a licence number gets the
literal sentinel key "unknown" (`prop.get("details", {}).get(
"licence_number", "unknown")`), so all such records are versioned into the
single shared "unknown" history: saving two unidentifiable records that
describe different real-world entities appends ordinals 0 and 1 of the one
"unknown" entity rather than opening two histories. -/
theorem c9_missing_licence_collides_to_unknown
    (prop1 prop2 : JObj) (d1 d2 : JObj)
    (h1 : prop1.lookup "details" = some (.obj d1))
    (hn1 : d1.lookup "licence_number" = none)
    (h2 : prop2.lookup "details" = some (.obj d2))
    (hn2 : d2.lookup "licence_number" = none) :
    licence_key prop1 = "unknown" ∧ licence_key prop2 = "unknown" ∧
    (∀ now fs, (∀ v, getF fs "unknown" v = none) →
      data_changed (prop_to_save prop2 now) (prop_to_save prop1 now) = true →
      save_results now [prop1, prop2] fs =
        (putF (putF fs "unknown" 0 (.good (prop_to_save prop1 now))) "unknown" 1
          (.good (prop_to_save prop2 now)), false)) := by
  have hk1 : licence_key prop1 = "unknown" := by
    rw [licence_key, licence_value, h1]
    show ((d1.lookup "licence_number").getD (Json.str "unknown")).pyStr = "unknown"
    rw [hn1]
    rfl
  have hk2 : licence_key prop2 = "unknown" := by
    rw [licence_key, licence_value, h2]
    show ((d2.lookup "licence_number").getD (Json.str "unknown")).pyStr = "unknown"
    rw [hn2]
    rfl
  refine ⟨hk1, hk2, ?_⟩
  intro now fs hnone hch
  have hs1 : saveProp now fs prop1 = .ok ⟨putF fs "unknown" 0
      (.good (prop_to_save prop1 now)), "unknown", 0, true⟩ := by
    have := saveProp_first now fs prop1 (by rw [hk1]; exact hnone)
    rw [hk1] at this
    exact this
  have hcontig1 : ContiguousAt (putF fs "unknown" 0 (.good (prop_to_save prop1 now)))
      "unknown" 1 := by
    intro v
    rcases Nat.eq_zero_or_pos v with h0 | hpos
    · subst h0
      rw [getF_putF_same]
      simp
    · rw [getF_putF_other fs _ _ _ _ v (by simp; omega), hnone v]
      simp
      omega
  have hlatest1 : getF (putF fs "unknown" 0 (.good (prop_to_save prop1 now)))
      "unknown" 0 = some (.good (prop_to_save prop1 now)) := getF_putF_same fs _ _ _
  have hs2 := saveProp_changed now (putF fs "unknown" 0 (.good (prop_to_save prop1 now)))
    prop2 1 (prop_to_save prop1 now) (by rw [hk2]; exact hcontig1) (by omega)
    (by rw [hk2]; exact hlatest1) hch
  rw [hk2] at hs2
  simp only [save_results, hs1, hs2]

/-- Concrete instance of C9: two records for different addresses, both
without a licence number, end up as ordinals 0 and 1 of the single
"unknown" history. -/
theorem c9_missing_licence_collides_to_unknown_witness :
    licence_key sampleNoLic = "unknown" ∧ licence_key sampleNoLic2 = "unknown" ∧
    save_results "t0" [sampleNoLic, sampleNoLic2] [] =
      ([(("unknown", 0), .good (prop_to_save sampleNoLic "t0")),
        (("unknown", 1), .good (prop_to_save sampleNoLic2 "t0"))], false) := by
  have h := c9_missing_licence_collides_to_unknown sampleNoLic sampleNoLic2
    (.cons "uprn" (.str "100") .nil) (.cons "uprn" (.str "200") .nil) rfl rfl rfl rfl
  refine ⟨h.1, h.2.1, ?_⟩
  rw [h.2.2 "t0" [] (fun v => rfl) (data_changed_true_of _ _ (by decide) (by decide)
    (by decide))]
  rfl

/-! ## C5 -/

/-- C5: on a non-empty key list, `get_next_postcodes` starts at index 0
when the persisted cursor is absent or its key is no longer in the list,
otherwise at (index_of(last_key) + 1) mod len; it returns `count` keys from
that index wrapping cyclically (repeats when count ≥ len); in particular
["A","B","C"] with count 5 and no prior cursor yields ["A","B","C","A","B"]. -/
theorem c5_next_keys_round_robin (postcodes : List String) (count : Nat)
    (last : Option String) (hne : postcodes ≠ []) :
    (∃ r, get_next_postcodes postcodes count last = .ok r ∧ r.length = count ∧
      ∀ i, i < count → r[i]? =
        postcodes[((match last with
          | none => 0
          | some lp => if lp ∈ postcodes then
              (postcodes.indexOf lp + 1) % postcodes.length
            else 0) + i) % postcodes.length]?) ∧
    get_next_postcodes ["A", "B", "C"] 5 none = .ok ["A", "B", "C", "A", "B"] := by
  constructor
  · rw [get_next_postcodes.eq_def, dif_neg hne]
    refine ⟨_, rfl, by simp, ?_⟩
    intro i hi
    have hlt : ((match last with
        | none => 0
        | some lp => if lp ∈ postcodes then
            (postcodes.indexOf lp + 1) % postcodes.length
          else 0) + i) % postcodes.length < postcodes.length :=
      Nat.mod_lt _ (List.length_pos.mpr hne)
    rw [List.getElem?_map, List.getElem?_range hi]
    rw [List.getElem?_eq_getElem hlt]
    rfl
  · rfl

/-- Concrete instance of C5: the spec's worked example. -/
theorem c5_next_keys_round_robin_witness :
    get_next_postcodes ["A", "B", "C"] 5 none = .ok ["A", "B", "C", "A", "B"] :=
  (c5_next_keys_round_robin ["A", "B", "C"] 5 none (by decide)).2

/-! ## C6 -/

/-- C6 counterexample: keys ["A", "B"] where scraping "A" fails and "B"
would succeed.  The loop in `scrape_registry.main` has no exception
handler, so the run aborts at "A": the cursor stays unadvanced (as the
claim says) but "B" is never attempted — the run does not continue to the
next key in the batch, contradicting the claim. -/
theorem c6_failed_key_counterexample :
    runBatch (fun k => if k = "A" then .error "boom" else .ok ()) ["A", "B"] none =
      (none, ["A"], some "boom") ∧
    "B" ∉ (runBatch (fun k => if k = "A" then .error "boom" else .ok ())
      ["A", "B"] none).2.1 := by
  constructor
  · rfl
  · decide

/-- C6 amended: when the extraction for one key fails, the orchestrator
does not advance the cursor for that key (the next run retries it), but —
the claim's continuation clause corrected — the exception propagates and
aborts the run: the failing key is the last one attempted, the keys after
it in the batch are not attempted, and the cursor holds the last
successfully completed key (or its initial value when none succeeded). -/
theorem c6_failure_keeps_cursor_and_aborts (scrape : String → Except String Unit)
    (pre : List String) (hpre : ∀ k ∈ pre, scrape k = .ok ())
    (k : String) (e : String) (hk : scrape k = .error e)
    (post : List String) (cursor : Option String) :
    runBatch scrape (pre ++ k :: post) cursor =
      ((pre.getLast?).elim cursor some, pre ++ [k], some e) := by
  induction pre generalizing cursor with
  | nil =>
    rw [List.nil_append, runBatch, hk]
    rfl
  | cons p pre' ih =>
    rw [List.cons_append, runBatch, hpre p (by simp)]
    have ih' := ih (fun x hx => hpre x (by simp [hx])) (some p)
    simp only [ih']
    cases pre' with
    | nil => rfl
    | cons q rest =>
      rw [List.getLast?_cons_cons]
      cases hg : (q :: rest).getLast? with
      | none =>
        exfalso
        rw [List.getLast?_eq_none_iff] at hg
        exact List.cons_ne_nil q rest hg
      | some x => rfl

/-- Concrete instance of the amended C6: "A" succeeds, "B" fails, "C" is
never attempted; the cursor ends at "A". -/
theorem c6_failure_keeps_cursor_and_aborts_witness :
    runBatch (fun k => if k = "B" then .error "x" else .ok ()) ["A", "B", "C"] none =
      (some "A", ["A", "B"], some "x") := by
  have h := c6_failure_keeps_cursor_and_aborts
    (fun k => if k = "B" then .error "x" else .ok ()) ["A"]
    (by intro k hk; simp only [List.mem_singleton] at hk; subst hk; rfl) "B" "x"
    rfl ["C"] none
  exact h

/-! ## C10 -/

/-- C10: `scrape_postcode` raises `ValueError` for a postcode with no space
before performing any fetch; for a postcode containing a space, all fetch
and extraction errors are caught internally and the returned result always
satisfies total_properties = len(properties), echoing the postcode,
timestamp and source tag. -/
theorem c10_scrape_postcode_space_guard (pcMap : List (String × String))
    (fetchPage : String → Except String (List JObj)) (t postcode : String) :
    (postcode.data.contains ' ' = false →
      scrape_postcode pcMap fetchPage t postcode =
        (.error ("Must use full postcode format (e.g., 'N19 3RU'), not outcode '"
          ++ postcode ++ "'"), [])) ∧
    (postcode.data.contains ' ' = true →
      ∃ r urls, scrape_postcode pcMap fetchPage t postcode = (.ok r, urls) ∧
        r.total_properties = r.properties.length ∧ r.postcode = postcode ∧
        r.scraped_at = t ∧ r.source = "rightmove") := by
  constructor
  · intro h
    rw [scrape_postcode, h]
    rfl
  · intro h
    rw [scrape_postcode, h]
    simp only [Bool.not_true, Bool.false_eq_true, if_false]
    cases List.lookup postcode pcMap with
    | none => exact ⟨_, _, rfl, rfl, rfl, rfl, rfl⟩
    | some code =>
      by_cases hc : code.isEmpty
      · simp only [hc, if_true]
        exact ⟨_, _, rfl, rfl, rfl, rfl, rfl⟩
      · simp only [hc, Bool.false_eq_true, if_false]
        cases fetchPage (rmSearchUrl code) with
        | ok props => exact ⟨_, _, rfl, rfl, rfl, rfl, rfl⟩
        | error e => exact ⟨_, _, rfl, rfl, rfl, rfl, rfl⟩

/-- Concrete instance of C10: the outcode "N19" is rejected with nothing
fetched; the full postcode "N19 3RU" yields a result with
total_properties = len(properties). -/
theorem c10_scrape_postcode_space_guard_witness :
    scrape_postcode [("N19 3RU", "182569")] (fun _ => .error "offline") "t" "N19" =
      (.error "Must use full postcode format (e.g., 'N19 3RU'), not outcode 'N19'", []) ∧
    scrape_postcode [("N19 3RU", "182569")] (fun _ => .error "offline") "t" "N19 3RU" =
      (.ok { source := "rightmove", scraped_at := "t", postcode := "N19 3RU",
             total_properties := 0, properties := [] },
       [rmSearchUrl "182569"]) := by
  have h1 := (c10_scrape_postcode_space_guard [("N19 3RU", "182569")]
    (fun _ => .error "offline") "t" "N19").1 (by decide)
  have h2 := (c10_scrape_postcode_space_guard [("N19 3RU", "182569")]
    (fun _ => .error "offline") "t" "N19 3RU").2 (by decide)
  exact ⟨h1, by rfl⟩

/-! ## C8 -/

/-- C8: for well-formed records and any set of ignored field names, the
change detector removes the ignored keys at the top level only — every
other top-level key keeps its whole value, so nested occurrences of the
ignored names are retained — and reports "unchanged" exactly when the
sorted-key canonical forms of the stripped records coincide (deep
structural equality: sequence order significant, mapping key order
insignificant).  `data_changed` is the instance with
ignored = ["scraped_at"]; the rightmove comparator `rmCoreChanged` is the
canonical-form comparison with its four ignored fields. -/
theorem c8_change_detector_canonical (ignored : List String) (r1 r2 : JObj)
    (h1 : Json.wfv (.obj r1) = true) (h2 : Json.wfv (.obj r2) = true) :
    (differs ignored r1 r2 = false ↔
      Json.canon (.obj (r1.removeKeys ignored)) =
        Json.canon (.obj (r2.removeKeys ignored))) ∧
    (∀ k, k ∉ ignored → (r1.removeKeys ignored).lookup k = r1.lookup k) ∧
    (∀ k, k ∈ ignored → (r1.removeKeys ignored).lookup k = none) ∧
    data_changed r1 r2 = differs ["scraped_at"] r1 r2 ∧
    (rmCoreChanged r1 r2 = false ↔
      Json.canon (.obj (r1.removeKeys rmIgnoreFields)) =
        Json.canon (.obj (r2.removeKeys rmIgnoreFields))) := by
  refine ⟨?_, ?_, ?_, rfl, ?_⟩
  · rw [differs]
    have hw1 := JObj.wfv_obj_removeKeys r1 ignored h1
    have hw2 := JObj.wfv_obj_removeKeys r2 ignored h2
    constructor
    · intro h
      have : Json.eqv (.obj (r1.removeKeys ignored)) (.obj (r2.removeKeys ignored)) = true := by
        cases he : Json.eqv (.obj (r1.removeKeys ignored)) (.obj (r2.removeKeys ignored))
        · rw [he] at h
          simp at h
        · rfl
      exact (Json.eqv_iff_canon _ _ hw1 hw2).mp this
    · intro h
      rw [(Json.eqv_iff_canon _ _ hw1 hw2).mpr h]
      rfl
  · intro k hk
    rw [JObj.lookup_removeKeys, if_neg hk]
  · intro k hk
    rw [JObj.lookup_removeKeys, if_pos hk]
  · rw [rmCoreChanged]
    constructor
    · intro h
      rw [decide_eq_false_iff_not] at h
      exact not_not.mp h
    · intro h
      rw [decide_eq_false_iff_not]
      exact fun hne => hne h

/-- Concrete instance of C8: records differing only in top-level
`scraped_at` and in mapping key order are "unchanged"; a nested
`scraped_at` is retained and does make them differ. -/
theorem c8_change_detector_canonical_witness :
    differs ["scraped_at"]
      (.cons "a" (.num 1) (.cons "b" (.num 2) (.cons "scraped_at" (.str "t1") .nil)))
      (.cons "b" (.num 2) (.cons "a" (.num 1) (.cons "scraped_at" (.str "t2") .nil)))
      = false ∧
    ((.cons "a" (.num 1) (.cons "scraped_at" (.str "t1") .nil) : JObj).removeKeys
      ["scraped_at"]).lookup "a" =
      (.cons "a" (.num 1) (.cons "scraped_at" (.str "t1") .nil) : JObj).lookup "a" := by
  constructor
  · exact (c8_change_detector_canonical ["scraped_at"] _ _ (by decide) (by decide)).1.mpr
      (by decide)
  · exact (c8_change_detector_canonical ["scraped_at"]
      (.cons "a" (.num 1) (.cons "scraped_at" (.str "t1") .nil)) .nil
      (by decide) (by decide)).2.1 "a" (by decide)

/-! ## C7 -/

/-- A registry directory whose only file for entity "ISL-1" is malformed. -/
def corruptStore : RegFiles := [(("ISL-1", 0), .bad)]

/-- C7 counterexample: in the registry store the claim fails.  With a
malformed latest version file, `json.load` in `save_results` (lines
219-220, no try/except) raises: `saveProp` propagates the error, no new
version is created, and the whole `save_results` call aborts — the
condition is fatal, not recovered by treating the record as "changed". -/
theorem c7_malformed_counterexample :
    saveProp "t1" corruptStore sampleProp = .error () ∧
    save_results "t1" [sampleProp] corruptStore = (corruptStore, true) := by
  constructor
  · rfl
  · rfl

/-- C7 amended: the fail-open behaviour holds in the rightmove store only.
When the file `_has_changed` selects is malformed, the parse error is
caught (logged as a warning) and the property is treated as changed, so a
new version is written at the next ordinal and the run continues.  In the
registry store the `json.load` exception propagates out of `save_results`:
the call fails, the store is left unmodified by that record, and no new
version is created. -/
theorem c7_malformed_latest_fails_open
    (source scraped_at postcode : String) (rfs : RegFiles) (rprop : JObj) (idv : Json)
    (hid : rprop.lookup "id" = some idv) (hfal : idv.falsy = false)
    (hnd : KeysNodupF rfs) (n : Nat) (hc : ContiguousAt rfs idv.pyStr n)
    (hpos : 0 < n) (h10 : n ≤ 10)
    (hbad : getF rfs idv.pyStr (n - 1) = some .bad)
    (now : String) (fs : RegFiles) (prop : JObj) (m : Nat)
    (hcm : ContiguousAt fs (licence_key prop) m) (hmpos : 0 < m)
    (hbadm : getF fs (licence_key prop) (m - 1) = some .bad) :
    rmSaveProp source scraped_at postcode rfs rprop =
      putF rfs idv.pyStr n (.good (rmPropJson source scraped_at postcode rprop)) ∧
    saveProp now fs prop = .error () ∧
    stepSave now prop fs = fs := by
  refine ⟨?_, saveProp_corrupt now fs prop m hcm hmpos hbadm, ?_⟩
  · rw [rmSaveProp, hid]
    simp only [hfal, Bool.false_eq_true, if_false]
    have hch : rmHasChanged rfs idv.pyStr rprop = true := by
      rw [rmHasChanged, rmLatestByName_of_contiguous rfs idv.pyStr n hnd hc hpos h10 _ hbad]
    rw [hch, if_pos rfl, rmGetNextVersion_of_contiguous rfs idv.pyStr n hc]
  · rw [stepSave, saveProp_corrupt now fs prop m hcm hmpos hbadm]

/-- A rightmove directory whose only file for property 7 is malformed. -/
def rmCorruptStore : RegFiles := [(("7", 0), .bad)]

/-- Concrete instance of the amended C7: the rightmove store writes a fresh
version over a corrupt history; the registry store raises instead. -/
theorem c7_malformed_latest_fails_open_witness :
    rmSaveProp "rightmove" "t1" "N1 1AA" rmCorruptStore sampleRM =
      [(("7", 0), .bad), (("7", 1), .good (rmPropJson "rightmove" "t1" "N1 1AA" sampleRM))] ∧
    saveProp "t1" corruptStore sampleProp = .error () := by
  have h := c7_malformed_latest_fails_open "rightmove" "t1" "N1 1AA" rmCorruptStore
    sampleRM (.num 7) rfl rfl (by simp [KeysNodupF, rmCorruptStore]) 1
    (by
      intro v
      rcases v with _ | v
      · decide
      · simp [rmCorruptStore, getF])
    (by omega) (by omega) rfl
    "t1" corruptStore sampleProp 1
    (by
      intro v
      rcases v with _ | v
      · decide
      · simp [corruptStore, getF])
    (by omega) rfl
  exact ⟨h.1, h.2.1⟩

/-! ## C1 -/

/-- A rightmove directory holding version 0 of property 7, scraped at t0. -/
def rmStore1 : RegFiles :=
  [(("7", 0), .good (rmPropJson "rightmove" "t0" "N1 1AA" sampleRM))]

/-- C1 counterexample: in the rightmove store, saving a record identical to
the stored latest version (ignored fields aside) at a later time t1 writes
nothing at all — the run loop `continue`s past the property, so the stored
latest version keeps its old `scraped_at` "t0" instead of having it
rewritten to "t1" as the claim states. -/
theorem c1_unchanged_counterexample :
    rmSaveProp "rightmove" "t1" "N1 1AA" rmStore1 sampleRM = rmStore1 ∧
    getF rmStore1 "7" 0 = some (.good (rmPropJson "rightmove" "t0" "N1 1AA" sampleRM)) ∧
    (rmPropJson "rightmove" "t0" "N1 1AA" sampleRM).lookup "scraped_at" =
      some (.str "t0") ∧
    ("t0" : String) ≠ "t1" := by
  refine ⟨rfl, rfl, rfl, by decide⟩

/-- C1 amended: saving a record identical (after removing the ignored
metadata fields) to the latest stored version creates no new ordinal in
either store, but the two stores behave differently.  The registry store
rewrites only the `scraped_at` of the existing latest version in place and
returns (latest_ordinal, False); every other file is untouched and no file
appears at the next ordinal.  The rightmove store skips the record
entirely — no write of any kind — provided its comparator's target (the
lexicographically last file name, which is the highest ordinal only while
the property has at most ten stored versions) matches the record. -/
theorem c1_unchanged_updates_timestamp_only
    (now : String) (fs : RegFiles) (prop : JObj) (n : Nat) (old : JObj)
    (hc : ContiguousAt fs (licence_key prop) n) (hn : 0 < n)
    (hlatest : getF fs (licence_key prop) (n - 1) = some (.good old))
    (hch : data_changed (prop_to_save prop now) old = false)
    (source scraped_at postcode : String) (rfs : RegFiles) (rprop : JObj) (idv : Json)
    (hid : rprop.lookup "id" = some idv) (hfal : idv.falsy = false)
    (hnd : KeysNodupF rfs) (n' : Nat) (hc' : ContiguousAt rfs idv.pyStr n')
    (hpos' : 0 < n') (h10 : n' ≤ 10) (latest : JObj)
    (hlatest' : getF rfs idv.pyStr (n' - 1) = some (.good latest))
    (hunch : rmCoreChanged latest rprop = false) :
    (saveProp now fs prop = .ok ⟨putF fs (licence_key prop) (n - 1)
        (.good (old.set "scraped_at" (.str now))), licence_key prop, n - 1, false⟩ ∧
      getF (putF fs (licence_key prop) (n - 1) (.good (old.set "scraped_at" (.str now))))
        (licence_key prop) (n - 1) = some (.good (old.set "scraped_at" (.str now))) ∧
      (∀ key v, (key, v) ≠ (licence_key prop, n - 1) →
        getF (putF fs (licence_key prop) (n - 1)
          (.good (old.set "scraped_at" (.str now)))) key v = getF fs key v) ∧
      getF (putF fs (licence_key prop) (n - 1) (.good (old.set "scraped_at" (.str now))))
        (licence_key prop) n = none) ∧
    rmSaveProp source scraped_at postcode rfs rprop = rfs := by
  constructor
  · refine ⟨saveProp_unchanged now fs prop n old hc hn hlatest hch, getF_putF_same fs _ _ _,
      fun key v hkv => getF_putF_other fs _ _ _ key v hkv, ?_⟩
    rw [getF_putF_other fs _ _ _ _ n (by simp; omega)]
    have := hc n
    rcases hgn : getF fs (licence_key prop) n with _ | c
    · rfl
    · rw [hgn] at this
      simp at this
  · rw [rmSaveProp, hid]
    simp only [hfal, Bool.false_eq_true, if_false]
    have hch' : rmHasChanged rfs idv.pyStr rprop = false := by
      rw [rmHasChanged,
        rmLatestByName_of_contiguous rfs idv.pyStr n' hnd hc' hpos' h10 _ hlatest']
      exact hunch
    rw [hch']
    rfl

/-- A registry directory holding version 0 of entity ISL-1, scraped at t0. -/
def regStoreU : RegFiles := [(("ISL-1", 0), .good (prop_to_save sampleProp "t0"))]

/-- Concrete instance of the amended C1: re-saving the same registry record
at t1 rewrites only `scraped_at` of version 0 in place (created = False, no
ordinal 1); re-saving the same rightmove record leaves the store untouched. -/
theorem c1_unchanged_updates_timestamp_only_witness :
    saveProp "t1" regStoreU sampleProp = .ok ⟨[(("ISL-1", 0),
      .good ((prop_to_save sampleProp "t0").set "scraped_at" (.str "t1")))],
      "ISL-1", 0, false⟩ ∧
    rmSaveProp "rightmove" "t1" "N1 1AA" rmStore1 sampleRM = rmStore1 := by
  have h := c1_unchanged_updates_timestamp_only "t1" regStoreU sampleProp 1
    (prop_to_save sampleProp "t0")
    (by
      intro v
      rcases v with _ | v
      · decide
      · simp [regStoreU, getF])
    (by omega) rfl
    (data_changed_false_of _ _ (by decide) (by decide) (by decide))
    "rightmove" "t1" "N1 1AA" rmStore1 sampleRM (.num 7) rfl rfl
    (by simp [KeysNodupF, rmStore1]) 1
    (by
      intro v
      rcases v with _ | v
      · decide
      · simp [rmStore1, getF])
    (by omega) (by omega) (rmPropJson "rightmove" "t0" "N1 1AA" sampleRM) rfl
    (by decide)
  exact ⟨h.1.1, h.2⟩

/-! ## C2 -/

/-- A rightmove property record for property 7 at a given price. -/
def rmRec (p : Int) : JObj := .cons "id" (.num 7) (.cons "price" (.num p) .nil)

/-- A rightmove directory holding versions 0..10 of property 7 (price
100 + v in version v). -/
def rmStore11 : RegFiles :=
  (List.range 11).map (fun v => (("7", v), FileVal.good
    (rmPropJson "rightmove" ("t" ++ toString v) "N1 1AA" (rmRec (100 + (v : Int))))))

/-- C2 counterexample: property 7 has versions 0..10; the new record
(price 109) differs from the highest-ordinal version 10 (price 110) in a
non-ignored field, so the claim demands a new version 11 = previous max + 1
— but `_has_changed` compares against `sorted(glob)[-1]`, the
lexicographically last file name `rightmove_7-9.json` (version 9, price
109), finds no difference, and writes nothing. -/
theorem c2_changed_counterexample :
    rmCoreChanged (rmPropJson "rightmove" "t10" "N1 1AA" (rmRec 110)) (rmRec 109) = true ∧
    getF rmStore11 "7" 10 =
      some (.good (rmPropJson "rightmove" "t10" "N1 1AA" (rmRec 110))) ∧
    getF rmStore11 "7" 11 = none ∧
    rmGetNextVersion rmStore11 "7" = 11 ∧
    rmSaveProp "rightmove" "t99" "N1 1AA" rmStore11 (rmRec 109) = rmStore11 := by
  refine ⟨by decide, by decide, by decide, by decide, by decide⟩

/-- C2 amended: a record that differs in a non-ignored field from the
version the comparator examines is stored at previous-maximum + 1 in both
stores.  For the registry store this is exactly the claim: a record
differing from the latest version yields ordinal = previous max + 1 with
created = True.  For the rightmove store, `_get_next_version` likewise
returns max + 1 — but the "latest" that `_has_changed` compares against is
the lexicographically last file name, which is the highest ordinal only
while the property has at most ten stored versions; under that bound, a
record differing from the latest version is stored at previous max + 1. -/
theorem c2_changed_creates_next_ordinal
    (now : String) (fs : RegFiles) (prop : JObj) (n : Nat) (old : JObj)
    (hc : ContiguousAt fs (licence_key prop) n) (hn : 0 < n)
    (hlatest : getF fs (licence_key prop) (n - 1) = some (.good old))
    (hch : data_changed (prop_to_save prop now) old = true)
    (source scraped_at postcode : String) (rfs : RegFiles) (rprop : JObj) (idv : Json)
    (hid : rprop.lookup "id" = some idv) (hfal : idv.falsy = false)
    (hnd : KeysNodupF rfs) (n' : Nat) (hc' : ContiguousAt rfs idv.pyStr n')
    (hpos' : 0 < n') (h10 : n' ≤ 10) (latest : JObj)
    (hlatest' : getF rfs idv.pyStr (n' - 1) = some (.good latest))
    (hdiff : rmCoreChanged latest rprop = true) :
    (saveProp now fs prop = .ok ⟨putF fs (licence_key prop) n
        (.good (prop_to_save prop now)), licence_key prop, n, true⟩ ∧
      (getF fs (licence_key prop) (n - 1)).isSome = true ∧
      (∀ v, (getF fs (licence_key prop) v).isSome = true → v ≤ n - 1)) ∧
    (rmSaveProp source scraped_at postcode rfs rprop =
        putF rfs idv.pyStr n' (.good (rmPropJson source scraped_at postcode rprop)) ∧
      rmGetNextVersion rfs idv.pyStr = n') := by
  constructor
  · refine ⟨saveProp_changed now fs prop n old hc hn hlatest hch,
      by rw [hlatest]; rfl, fun v hv => ?_⟩
    have := (hc v).mp hv
    omega
  · have hgnv := rmGetNextVersion_of_contiguous rfs idv.pyStr n' hc'
    refine ⟨?_, hgnv⟩
    rw [rmSaveProp, hid]
    simp only [hfal, Bool.false_eq_true, if_false]
    have hch' : rmHasChanged rfs idv.pyStr rprop = true := by
      rw [rmHasChanged,
        rmLatestByName_of_contiguous rfs idv.pyStr n' hnd hc' hpos' h10 _ hlatest']
      exact hdiff
    rw [hch', if_pos rfl, hgnv]

/-- Concrete instance of the amended C2: one stored version each; a record
changed in a detail field lands at ordinal 1 = 0 + 1 in both stores. -/
theorem c2_changed_creates_next_ordinal_witness :
    saveProp "t1" regStoreU samplePropB = .ok ⟨[(("ISL-1", 0),
        .good (prop_to_save sampleProp "t0")),
      (("ISL-1", 1), .good (prop_to_save samplePropB "t1"))], "ISL-1", 1, true⟩ ∧
    rmSaveProp "rightmove" "t1" "N1 1AA" rmStore1 (rmRec 120) =
      [(("7", 0), .good (rmPropJson "rightmove" "t0" "N1 1AA" sampleRM)),
       (("7", 1), .good (rmPropJson "rightmove" "t1" "N1 1AA" (rmRec 120)))] := by
  have h := c2_changed_creates_next_ordinal "t1" regStoreU samplePropB 1
    (prop_to_save sampleProp "t0")
    (by
      intro v
      rcases v with _ | v
      · decide
      · simp [regStoreU, getF])
    (by omega) rfl
    (data_changed_true_of _ _ (by decide) (by decide) (by decide))
    "rightmove" "t1" "N1 1AA" rmStore1 (rmRec 120) (.num 7) rfl rfl
    (by simp [KeysNodupF, rmStore1]) 1
    (by
      intro v
      rcases v with _ | v
      · decide
      · simp [rmStore1, getF])
    (by omega) (by omega) (rmPropJson "rightmove" "t0" "N1 1AA" sampleRM) rfl
    (by decide)
  exact ⟨h.1.1, h.2.1⟩

/-! ## C4 -/

/-- C4: starting from an empty store, any sequence of save calls — changed
and unchanged interleaved — leaves every entity's version ordinals
contiguous from 0 (both stores); every save step preserves existing
version files (never deletes), and touches no ordinal below the latest
(the registry rewrites at most the latest, the rightmove store rewrites
nothing at all), so the version with the highest ordinal is the one the
most recent save wrote. -/
theorem c4_version_ordinals_contiguous :
    (∀ ops : List (String × JObj), Contiguous (runSaves ops [])) ∧
    (∀ (now : String) (prop : JObj) (fs : RegFiles), Contiguous fs →
      Contiguous (stepSave now prop fs) ∧
      (∀ key v, (getF fs key v).isSome = true →
        (getF (stepSave now prop fs) key v).isSome = true) ∧
      (∀ key v, v + 1 < find_next_version fs key →
        getF (stepSave now prop fs) key v = getF fs key v)) ∧
    (∀ ops : List ((String × String × String) × JObj),
      Contiguous (rmRunSaves ops [])) ∧
    (∀ (source t pc : String) (fs : RegFiles) (prop : JObj) (key : String) (v : Nat),
      (getF fs key v).isSome = true →
      getF (rmSaveProp source t pc fs prop) key v = getF fs key v) :=
  ⟨fun ops => runSaves_contiguous ops [] contiguous_nil,
    fun now prop fs hc => stepSave_preserves now prop fs hc,
    fun ops => rmRunSaves_contiguous ops [] contiguous_nil,
    fun source t pc fs prop key v h =>
      rmSaveProp_preserves_existing source t pc fs prop key v h⟩

/-- A registry directory holding versions 0 and 1 of entity ISL-1. -/
def regStore2 : RegFiles :=
  [(("ISL-1", 0), .good (prop_to_save sampleProp "t0")),
   (("ISL-1", 1), .good (prop_to_save samplePropB "t1"))]

/-- Concrete instance of C4: traces from the empty store are contiguous,
and a save over a two-version entity leaves the non-latest version 0
untouched (registry) and the stored version 0 untouched (rightmove). -/
theorem c4_version_ordinals_contiguous_witness :
    Contiguous (runSaves [("t0", sampleProp)] []) ∧
    Contiguous (rmRunSaves [(("rightmove", "t0", "N1 1AA"), sampleRM)] []) ∧
    getF (stepSave "t2" sampleProp regStore2) "ISL-1" 0 = getF regStore2 "ISL-1" 0 ∧
    getF (rmSaveProp "rightmove" "t9" "N1 1AA" rmStore1 (rmRec 130)) "7" 0 =
      getF rmStore1 "7" 0 := by
  have hcontig2 : Contiguous regStore2 := by
    intro key
    by_cases hkey : key = "ISL-1"
    · subst hkey
      refine ⟨2, fun v => ?_⟩
      rcases v with _ | _ | v <;> simp [regStore2, getF] <;> omega
    · refine ⟨0, fun v => ?_⟩
      simp [regStore2, getF, hkey, Ne.symm hkey]
  refine ⟨c4_version_ordinals_contiguous.1 [("t0", sampleProp)],
    c4_version_ordinals_contiguous.2.2.1 [(("rightmove", "t0", "N1 1AA"), sampleRM)],
    (c4_version_ordinals_contiguous.2.1 "t2" sampleProp regStore2 hcontig2).2.2
      "ISL-1" 0 (by decide),
    c4_version_ordinals_contiguous.2.2.2 "rightmove" "t9" "N1 1AA" rmStore1
      (rmRec 130) "7" 0 (by decide)⟩
